import Mathlib

/-!
Verification of the lofi-lobby game-ingestion pipeline (`scripts/add-game.mjs`
together with the helpers of `scripts/renpy-utils.mjs`).

The development shallowly embeds the ingestion logic:

* JavaScript string operations are modelled on `String.data` (a JS string is a
  sequence of code units; we model it as the list of characters of a Lean
  `String`).
* A filesystem directory is modelled as a list of `FsEntry` trees; a zip
  archive as a list of `ZipEntry` records carrying the slash-separated entry
  name, exactly as `adm-zip` exposes them.
* The orchestration of `main()` in `add-game.mjs` is modelled as a pure
  function `runMain` over a `World` of observables (catalog document,
  destination directory, thumbnail store, icon files), with the outcomes of
  the external collaborators (zip codec, Ren'Py SDK, build subprocess)
  supplied as an `Env` record.
-/

/-! ## JavaScript string primitives

Each definition models the JS `String` method of the same name, acting on the
character sequence of the string. -/

/-- Model of JS `s.startsWith(p)`. -/
def jsStartsWith (s p : String) : Bool := p.data.isPrefixOf s.data

/-- Model of JS `s.endsWith(p)`. -/
def jsEndsWith (s p : String) : Bool := p.data.isSuffixOf s.data

/-- Model of JS `s.toLowerCase()` (character-wise lowering). -/
def jsToLower (s : String) : String := ⟨s.data.map Char.toLower⟩

/-- Model of JS `s.slice(n)` (drop the first `n` code units). -/
def jsSlice (s : String) (n : Nat) : String := ⟨s.data.drop n⟩

/-- Model of JS `s.length`. -/
def jsLength (s : String) : Nat := s.data.length

/-- Model of JS `s.includes(p)` (substring containment). -/
def jsIncludes (s p : String) : Bool := decide (p.data <:+: s.data)

/-- Model of JS `name.split('/')`. -/
def splitSlash (s : String) : List String := (s.data.splitOn '/').map (⟨·⟩)

/-- Model of JS `name.split('/').filter(Boolean)` (empty strings are falsy). -/
def splitSlashNonempty (s : String) : List String :=
  (splitSlash s).filter (· ≠ "")

/-! ## Filesystem trees

A directory's content is a list of entries; an entry is a file (with name,
size in bytes, and a readability flag modelling whether `fs.statSync`
succeeds on it) or a subdirectory. -/

/-- A filesystem entry: a file or a directory with its children. -/
inductive FsEntry where
  | file (name : String) (size : Nat) (readable : Bool)
  | dir (name : String) (children : List FsEntry)

/-- Name of a filesystem entry. -/
def FsEntry.name : FsEntry → String
  | .file n _ _ => n
  | .dir n _ => n

/-- Whether the entry is a directory (`dirent.isDirectory()`). -/
def FsEntry.isDir : FsEntry → Bool
  | .file _ _ _ => false
  | .dir _ _ => true

/-- Whether the entry is a file (`dirent.isFile()`). -/
def FsEntry.isFile : FsEntry → Bool
  | .file _ _ _ => true
  | .dir _ _ => false

/-- Look up the child directory `name` of a directory listing, mirroring the
idiom `fs.existsSync(path.join(root, name)) && fs.statSync(...).isDirectory()`
followed by `fs.readdirSync`: `some children` when an entry called `name`
exists and is a directory, `none` otherwise. -/
def childDir (es : List FsEntry) (name : String) : Option (List FsEntry) :=
  match es.find? (fun e => e.name = name) with
  | some (.dir _ cs) => some cs
  | _ => none

/-! ## Well-formedness of directory trees

Names produced by a real filesystem are nonempty, contain no `/`, and are
unique among siblings. -/

mutual

/-- Well-formedness of a single entry: nonempty slash-free name, and for a
directory a well-formed listing of children. -/
def FsEntry.wf : FsEntry → Bool
  | .file n _ _ => n ≠ "" && !n.data.contains '/'
  | .dir n cs => n ≠ "" && !n.data.contains '/' && allWf cs
      && decide ((cs.map FsEntry.name).Nodup)

/-- All entries of a listing are well-formed. -/
def allWf : List FsEntry → Bool
  | [] => true
  | e :: es => FsEntry.wf e && allWf es

end

/-- Well-formedness of a directory listing: every entry well-formed and
sibling names pairwise distinct. -/
def wfList (es : List FsEntry) : Bool :=
  allWf es && decide ((es.map FsEntry.name).Nodup)

/-! ## Ren'Py content detection (`scripts/renpy-utils.mjs`)

`dirContainsRpy` and `dirContainsRpyc` in the source are textually identical
up to the suffix tested, so they are obtained here by instantiating one
parameterized recursion. -/

mutual

/-- Recursively check whether a directory listing contains a file whose
lowercased name ends with `sfx` (model of `dirContainsRpy`/`dirContainsRpyc`
with `sfx` the tested suffix). -/
def dirContainsExt (sfx : String) : List FsEntry → Bool
  | [] => false
  | e :: es => entryContainsExt sfx e || dirContainsExt sfx es

/-- Per-entry step of `dirContainsExt`: a file matches when its lowercased
name ends with `sfx`; a directory matches when its children do. -/
def entryContainsExt (sfx : String) : FsEntry → Bool
  | .file n _ _ => jsEndsWith (jsToLower n) sfx
  | .dir _ cs => dirContainsExt sfx cs

end

/-- Model of `dirContainsRpy`: the listing contains a `.rpy` file anywhere. -/
def dirContainsRpy (es : List FsEntry) : Bool := dirContainsExt ".rpy" es

/-- Model of `dirContainsRpyc`: the listing contains a `.rpyc` file anywhere. -/
def dirContainsRpyc (es : List FsEntry) : Bool := dirContainsExt ".rpyc" es

/-- Model of `dirHasRenpyGame`: a `game` subdirectory containing a `.rpy`
file anywhere beneath it. -/
def dirHasRenpyGame (es : List FsEntry) : Bool :=
  match childDir es "game" with
  | some g => dirContainsRpy g
  | none => false

/-- Model of `dirHasRenpyDistribution`: a `game` subdirectory containing a
`.rpyc` file but no `.rpy` file. -/
def dirHasRenpyDistribution (es : List FsEntry) : Bool :=
  match childDir es "game" with
  | some g => dirContainsRpyc g && !dirContainsRpy g
  | none => false

/-- Model of `findRenpyProjectRoot`: the listing itself, or its single
directory child, when it has the Ren'Py project shape. Returns the project
root's listing. -/
def findRenpyProjectRoot (es : List FsEntry) : Option (List FsEntry) :=
  if dirHasRenpyGame es then some es
  else
    match es.filter FsEntry.isDir with
    | [FsEntry.dir _ cs] => if dirHasRenpyGame cs then some cs else none
    | _ => none

/-- Model of `findRenpyDistributionRoot`: the listing itself, or its single
directory child, when it has the compiled-distribution shape. -/
def findRenpyDistributionRoot (es : List FsEntry) : Option (List FsEntry) :=
  if dirHasRenpyDistribution es then some es
  else
    match es.filter FsEntry.isDir with
    | [FsEntry.dir _ cs] => if dirHasRenpyDistribution cs then some cs else none
    | _ => none

/-! ## Unpack plans (Structure Planner) -/

/-- The unpack plan of a package source (`{ flatten, rootFolder }` in the
source; the spec calls the second field `rootPfx`). -/
structure UnpackPlan where
  flatten : Bool
  rootFolder : Option String
deriving DecidableEq

/-- Model of `getUnpackStructureFromDir` applied to the listing of an
existing directory: flatten exactly when the listing has a single entry and
that entry is a directory. -/
def getUnpackStructureFromDir (es : List FsEntry) : UnpackPlan :=
  let dirs := es.filter FsEntry.isDir
  if dirs.length = 1 ∧ es.length = 1 then
    ⟨true, dirs.head?.map FsEntry.name⟩
  else ⟨false, none⟩

/-! ## Zip archives -/

/-- A zip entry as exposed by `adm-zip`: the slash-separated entry name and
the directory flag. -/
structure ZipEntry where
  entryName : String
  isDirectory : Bool
deriving DecidableEq

/-- First segment of an entry name (`entryName.split('/').filter(Boolean)[0]`),
`none` when the name has no nonempty segment. -/
def topSeg (e : ZipEntry) : Option String :=
  (splitSlashNonempty e.entryName).head?

/-- The sequence of first segments of all entries, in order (each entry with
`parts.length >= 1` contributes `parts[0]`). -/
def topSegs (entries : List ZipEntry) : List String :=
  entries.filterMap topSeg

/-- The set of top-level entry names of a zip, modelling the `Set` built by
`getUnpackStructure` (only its cardinality and sole member are consumed). -/
def zipTopLevel (entries : List ZipEntry) : List String :=
  (topSegs entries).dedup

/-- Model of `getUnpackStructure`: flatten exactly when the top-level name
set is a singleton, regardless of whether that entry is a container. -/
def getUnpackStructure (entries : List ZipEntry) : UnpackPlan :=
  match zipTopLevel entries with
  | [r] => ⟨true, some r⟩
  | _ => ⟨false, none⟩

/-- Model of the closures `hasGameRpy`/`hasGameRpyc` inside
`zipWouldYieldRenpyProject`/`zipWouldYieldRenpyDistribution` (they are
textually identical up to the suffix): some entry lies under `pfx`, its
remainder after the pfx lies under `game/`, and its lowercased remainder
ends with `sfx`. -/
def hasGameEntryWithSuffix (entries : List ZipEntry) (pfx : String)
    (sfx : String) : Bool :=
  let pfxSlash := if pfx = "" then "" else pfx ++ "/"
  entries.any fun e =>
    let name := e.entryName
    if !jsStartsWith name pfxSlash then false
    else
      let rest := if pfx = "" then name else jsSlice name (jsLength pfxSlash)
      jsStartsWith rest "game/" && jsEndsWith (jsToLower rest) sfx

/-- Model of `zipWouldYieldRenpyProject`. -/
def zipWouldYieldRenpyProject (entries : List ZipEntry)
    (plan : UnpackPlan) : Bool :=
  match plan with
  | ⟨true, some r⟩ => hasGameEntryWithSuffix entries r ".rpy"
  | _ =>
    if hasGameEntryWithSuffix entries "" ".rpy" then true
    else
      match zipTopLevel entries with
      | [r] => hasGameEntryWithSuffix entries r ".rpy"
      | _ => false

/-- Model of `zipWouldYieldRenpyDistribution` (`check(p)` in the source is
`hasGameRpyc(p) && !hasGameRpy(p)`). -/
def zipWouldYieldRenpyDistribution (entries : List ZipEntry)
    (plan : UnpackPlan) : Bool :=
  match plan with
  | ⟨true, some r⟩ =>
      hasGameEntryWithSuffix entries r ".rpyc"
        && !hasGameEntryWithSuffix entries r ".rpy"
  | _ =>
    if hasGameEntryWithSuffix entries "" ".rpyc"
        && !hasGameEntryWithSuffix entries "" ".rpy" then true
    else
      match zipTopLevel entries with
      | [r] =>
          hasGameEntryWithSuffix entries r ".rpyc"
            && !hasGameEntryWithSuffix entries r ".rpy"
      | _ => false

/-- Model of `dirWouldYieldRenpyProject`: resolve the planned root, then test
`game/` for `.rpy` content. -/
def dirWouldYieldRenpyProject (es : List FsEntry) (plan : UnpackPlan) : Bool :=
  let root? : Option (List FsEntry) :=
    match plan with
    | ⟨true, some r⟩ => childDir es r
    | _ => some es
  match root? with
  | some root => dirHasRenpyGame root
  | none => false

/-- Model of `dirWouldYieldRenpyDistribution`: resolve the planned root, then
test `game/` for compiled-only content. -/
def dirWouldYieldRenpyDistribution (es : List FsEntry)
    (plan : UnpackPlan) : Bool :=
  let root? : Option (List FsEntry) :=
    match plan with
    | ⟨true, some r⟩ => childDir es r
    | _ => some es
  match root? with
  | some root => dirHasRenpyDistribution root
  | none => false

/-! ## Project classification

The dry-run reporting branch of `main` tests project-ness first, then
distribution-ness, and otherwise treats the source as a plain static bundle;
this三-way outcome is the spec's `ProjectClassification`. -/

/-- The three classifications of the spec's Project Classifier. -/
inductive ProjectClassification where
  | Buildable
  | PrebuiltDistribution
  | StaticBundle
deriving DecidableEq

/-- Classification of a directory source, via its own unpack plan. -/
def classifyDir (es : List FsEntry) : ProjectClassification :=
  let plan := getUnpackStructureFromDir es
  if dirWouldYieldRenpyProject es plan then .Buildable
  else if dirWouldYieldRenpyDistribution es plan then .PrebuiltDistribution
  else .StaticBundle

/-- Classification of a zip source, via its own unpack plan. -/
def classifyZip (entries : List ZipEntry) : ProjectClassification :=
  let plan := getUnpackStructure entries
  if zipWouldYieldRenpyProject entries plan then .Buildable
  else if zipWouldYieldRenpyDistribution entries plan then .PrebuiltDistribution
  else .StaticBundle

/-! ## Zip form of a directory tree

A directory tree packed as a zip lists one entry per file and one
slash-terminated entry per directory, exactly as archivers record folders. -/

mutual

/-- Zip entries produced by one filesystem entry, all names carrying the
accumulated `pfx` (the pfx is either empty or slash-terminated). -/
def zipEntriesOfEntry (pfx : String) : FsEntry → List ZipEntry
  | .file n _ _ => [⟨pfx ++ n, false⟩]
  | .dir n cs => ⟨pfx ++ n ++ "/", true⟩ :: zipEntriesOfList (pfx ++ n ++ "/") cs

/-- Zip entries of a directory listing. -/
def zipEntriesOfList (pfx : String) : List FsEntry → List ZipEntry
  | [] => []
  | e :: es => zipEntriesOfEntry pfx e ++ zipEntriesOfList pfx es

end

/-- The zip form of a directory tree. -/
def zipOfTree (es : List FsEntry) : List ZipEntry := zipEntriesOfList "" es

/-! ## The prepending structure of zip entry names -/

/-- Prepend an accumulated name pfx onto a zip entry. -/
def prependZip (q : String) (z : ZipEntry) : ZipEntry :=
  ⟨q ++ z.entryName, z.isDirectory⟩

/-- The per-entry condition of `hasGameEntryWithSuffix` with empty pfx. -/
def zipMatch (sfx : String) (z : ZipEntry) : Bool :=
  jsStartsWith z.entryName "game/" && jsEndsWith (jsToLower z.entryName) sfx

/-! ## Zip scans versus the directory classifier -/

/-- The directory-side test shared by project and distribution detection:
content with suffix `sfx` somewhere below a `game` child directory. -/
def dirGameExt (sfx : String) (es : List FsEntry) : Bool :=
  match childDir es "game" with
  | some g => dirContainsExt sfx g
  | none => false

/-! ## Thumbnail Selector (`findThumbnailCandidate` in `add-game.mjs`) -/

/-- The fixed image-extension set `IMAGE_EXTENSIONS`. -/
def IMAGE_EXTENSIONS : List String := [".png", ".jpg", ".jpeg", ".webp", ".gif"]

/-- The ordered hint-substring list `THUMBNAIL_NAME_HINTS`. -/
def THUMBNAIL_NAME_HINTS : List String :=
  ["thumbnail", "icon", "screenshot", "preview", "banner", "cover", "logo",
    "splash", "poster", "title", "keyart"]

/-- Model of `path.extname` on a bare filename: the suffix starting at the
last `'.'`, or `""` when there is no dot or the only dot is the leading
character. -/
def extname (n : String) : String :=
  match (n.data.enum.filter (fun q => q.2 = '.')).getLast? with
  | some (i, _) => if i = 0 then "" else ⟨n.data.drop i⟩
  | none => ""

/-- Model of `path.basename(n, ext)` on a bare filename: strip the suffix
`ext` when it matches case-sensitively and is not the whole name. -/
def jsBasename (n ext : String) : String :=
  if ext ≠ "" ∧ ext.data.isSuffixOf n.data ∧ n ≠ ext then
    ⟨n.data.take (n.data.length - ext.data.length)⟩
  else n

/-- The hint loop of `findThumbnailCandidate`: first hint (in list order)
contained in the lowercased base name contributes `50 - index` and breaks. -/
def hintBonusAux (baseName : String) : List String → Nat → Nat
  | [], _ => 0
  | h :: t, i => if jsIncludes baseName h then 50 - i else hintBonusAux baseName t (i + 1)

/-- Hint weight of a base name against `THUMBNAIL_NAME_HINTS`. -/
def hintBonus (baseName : String) : Nat :=
  hintBonusAux baseName THUMBNAIL_NAME_HINTS 0

/-- The score assigned by `findThumbnailCandidate`: root bonus, hint weight,
size bonus. -/
def thumbScore (isRoot : Bool) (baseName : String) (size : Nat) : Nat :=
  (if isRoot then 100 else 0) + hintBonus baseName +
    (if size > 1000 then 10 else 0)

/-- A scored thumbnail candidate (`{ filePath, ext, score, size }`); the file
path is modelled as the list of path segments below the destination root. -/
structure ThumbCand where
  path : List String
  ext : String
  score : Nat
  size : Nat
deriving DecidableEq

mutual

/-- The recursive walk of `findThumbnailCandidate`, collecting scored image
candidates in traversal (DFS, directory-first) order. An unreadable file
(`fs.statSync` throws) is skipped. -/
def walkThumb (pfx : List String) (isRoot : Bool) : List FsEntry → List ThumbCand
  | [] => []
  | e :: es => walkThumbEntry pfx isRoot e ++ walkThumb pfx isRoot es

/-- Per-entry step of `walkThumb`. -/
def walkThumbEntry (pfx : List String) (isRoot : Bool) : FsEntry → List ThumbCand
  | .dir n cs => walkThumb (pfx ++ [n]) false cs
  | .file n sz rd =>
    let ext := jsToLower (extname n)
    if IMAGE_EXTENSIONS.contains ext then
      if rd then
        [⟨pfx ++ [n], ext,
          thumbScore isRoot (jsToLower (jsBasename n ext)) sz, sz⟩]
      else []
    else []

end

/-- The comparator `b.score - a.score || b.size - a.size` as a strict
"is strictly better" test. -/
def betterThumb (d b : ThumbCand) : Bool :=
  b.score < d.score || (d.score = b.score && b.size < d.size)

/-- Model of `candidates.sort(cmp)[0]` for the stable JS sort with the above
comparator: the earliest candidate (in traversal order) whose
`(score, size)` pair is lexicographically maximal. A left fold that replaces
the current best only on a strictly better candidate computes exactly that
element; `stepBest` is one fold step. -/
def stepBest (b d : ThumbCand) : ThumbCand :=
  if betterThumb d b then d else b

/-- The fold computing the earliest maximum. -/
def pickBest : List ThumbCand → Option ThumbCand
  | [] => none
  | c :: cs => some (cs.foldl stepBest c)

/-- Model of `findThumbnailCandidate`: walk, sort, return
`{ filePath, ext }` of the best candidate, or `null` with no candidates. -/
def findThumbnailCandidate (gameDir : List FsEntry) :
    Option (List String × String) :=
  match pickBest (walkThumb [] true gameDir) with
  | some c => some (c.path, c.ext)
  | none => none

/-! ## Specification-side view of the walk (claim C9) -/

/-- A file of the destination tree: directory path, name, size, readability. -/
structure FileRec where
  dirPath : List String
  fname : String
  fsize : Nat
  freadable : Bool
deriving DecidableEq

mutual

/-- All files of a listing in DFS traversal order, with their directory
paths. -/
def filesOfList (pfx : List String) : List FsEntry → List FileRec
  | [] => []
  | e :: es => filesOfEntry pfx e ++ filesOfList pfx es

/-- Per-entry step of `filesOfList`. -/
def filesOfEntry (pfx : List String) : FsEntry → List FileRec
  | .file n sz rd => [⟨pfx, n, sz, rd⟩]
  | .dir n cs => filesOfList (pfx ++ [n]) cs

end

/-- All files of the destination tree. -/
def filesOf (es : List FsEntry) : List FileRec := filesOfList [] es

/-- The candidate the spec assigns to a file: present exactly when the
extension is in the image set and the file is readable, scored with the root
bonus exactly for files directly at the root. -/
def specThumbOf (pfx : List String) (isRoot : Bool) (q : FileRec) :
    Option ThumbCand :=
  let ext := jsToLower (extname q.fname)
  if IMAGE_EXTENSIONS.contains ext && q.freadable then
    some ⟨q.dirPath ++ [q.fname], ext,
      thumbScore (isRoot && decide (q.dirPath = pfx))
        (jsToLower (jsBasename q.fname ext)) q.fsize, q.fsize⟩
  else none

/-- `c` is the earliest lexicographic maximum of the candidate list: every
earlier candidate is strictly worse, and no later candidate is strictly
better. -/
def IsFirstMax (l : List ThumbCand) (c : ThumbCand) : Prop :=
  ∃ l₁ l₂, l = l₁ ++ c :: l₂ ∧
    (∀ d ∈ l₁, betterThumb c d = true) ∧
    (∀ d ∈ l₂, betterThumb d c = false)

/-! ## Entry-Point Resolver (`getRootHtmlFiles` and the selection in `main`) -/

/-- Insert into a sorted list of strings. -/
def insertSorted (x : String) : List String → List String
  | [] => [x]
  | y :: t => if x ≤ y then x :: y :: t else y :: insertSorted x t

/-- Model of the default JS `Array.sort()` on strings: sort lexicographically
by code units (insertion sort; equal strings keep their relative order,
which the default sort also guarantees for equal keys). -/
def sortStrings : List String → List String
  | [] => []
  | x :: t => insertSorted x (sortStrings t)

/-- Model of `getRootHtmlFiles`: names of the plain files directly at the
destination root whose lowercased name ends in `.html`, sorted. -/
def getRootHtmlFiles (gameDir : List FsEntry) : List String :=
  sortStrings ((gameDir.filter
    (fun d => d.isFile && jsEndsWith (jsToLower d.name) ".html")).map
      FsEntry.name)

/-- Numeric value of a digit run. -/
def digitsToNat (ds : List Char) : Nat :=
  ds.foldl (fun a c => a * 10 + (c.toNat - '0'.toNat)) 0

/-- Model of JS `parseInt(s, 10)`: skip whitespace, optional sign, maximal
leading digit run; `none` models `NaN` (no digits). Trailing garbage is
ignored, as in JS. -/
def jsParseInt (s : String) : Option Int :=
  let cs := s.data.dropWhile Char.isWhitespace
  let signAndRest : Int × List Char :=
    match cs with
    | '-' :: t => (-1, t)
    | '+' :: t => (1, t)
    | _ => (1, cs)
  let ds := signAndRest.2.takeWhile Char.isDigit
  if ds = [] then none
  else some (signAndRest.1 * (digitsToNat ds : Int))

/-- Model of the entry-point selection in `main` (lines 891-910): a sole
candidate is taken directly; otherwise a parsed in-range 1-based index wins,
then an exact filename, then the first candidate. `none` only for an empty
candidate list (unreachable in `main`, which errors out earlier). -/
def selectEntryPoint (files : List String) (raw : String) : Option String :=
  match files with
  | [] => none
  | [f] => some f
  | _ =>
    match jsParseInt raw with
    | some n =>
      if 1 ≤ n ∧ n ≤ files.length then files.get? (n - 1).toNat
      else if raw ∈ files then some raw
      else files.head?
    | none =>
      if raw ∈ files then some raw
      else files.head?

/-- A selection the code accepts directly: an in-range (1-based) parsed
index, or one of the listed filenames. -/
def ValidSelection (files : List String) (raw : String) : Prop :=
  (∃ n : Int, jsParseInt raw = some n ∧ 1 ≤ n ∧ n ≤ files.length) ∨
    raw ∈ files

/-! ## The pipeline controller (`main` in `add-game.mjs`)

The orchestration of `main` is modelled as a pure function over a `World`
of observables: the persisted catalog document (`games.yaml`), the
destination directory `public/play/<id>`, the state of the project icon
files inside it, and the thumbnail store `public/images/games`. External
collaborators (the zip codec, the Ren'Py SDK and launcher discovery, the
`distribute` subprocess with its timeout, the build-output naming
convention) are abstracted as `Env` fields giving their outcomes; the
destination content itself is carried as trees (`materializedTree` after
copy/extract, `builtTree` after installing a web build and hoisting). -/

/-- A persisted catalog record (`GameEntry` of the spec). -/
structure Game where
  id : String
  name : String
  gtype : String
  version : String
  description : String
  thumbnail : String
  playable : Bool
  lastUpdated : String
  entryPoint : String
deriving DecidableEq

/-- State of the project icon files (`icon.ico` / `icon.icns`) inside the
destination: absent, at their original names, or renamed to `.bak`. -/
inductive IconState where
  | absent
  | atOriginal
  | hiddenBak
deriving DecidableEq

/-- The observable world state of one pipeline run. -/
structure World where
  catalog : List Game
  destExists : Bool
  icons : IconState
  thumbStore : List String
deriving DecidableEq

/-- The fatal-error exits of `main`, one per `error(...)` call site. -/
inductive ErrKind where
  | missingPath
  | badZip
  | copyFailed
  | sdkMissing
  | webMissing
  | launcherMissing
  | buildFailed
  | distOutputMissing
  | webOutputMissing
  | unexpectedWebOutput
  | distributionNotSource
  | noHtmlFound
deriving DecidableEq

/-- Process outcome: normal return (exit 0) or `process.exit(1)` with the
diagnostic kind. -/
inductive Outcome where
  | success
  | failure (e : ErrKind)
deriving DecidableEq

/-- Shape of the located web build output. -/
inductive WebKind where
  | dirOutput
  | zipOutput
  | otherOutput
deriving DecidableEq

/-- Parsed command line (`parseArgs`). -/
structure Args where
  gameId : String
  version : Option String
  dryRun : Bool

/-- Outcomes of the external collaborators and the source content for one
run. -/
structure Env where
  args : Args
  sourceExists : Bool
  sourceIsDir : Bool
  zipOpens : Bool
  versionFromFilename : Option String
  promptVersion : String
  copyOk : Bool
  materializedTree : List FsEntry
  sdkPresent : Bool
  webSupport : Bool
  launcherFound : Bool
  buildSucceeds : Bool
  distBaseFound : Bool
  webEntryFound : Bool
  webOutputKind : WebKind
  builtTree : List FsEntry
  promptEntry : String
  today : String
  newName : String
  newType : String
  newDescription : String

/-- Model of `hideProjectIcons`: rename present icons to `.bak`. -/
def hideProjectIcons (st : IconState) : IconState :=
  match st with
  | .atOriginal => .hiddenBak
  | s => s

/-- Model of `restoreProjectIcons`: rename `.bak` icons back. -/
def restoreProjectIcons (st : IconState) : IconState :=
  match st with
  | .hiddenBak => .atOriginal
  | s => s

/-- Model of the build invocation block (lines 809-824 of `add-game.mjs`):
`hideProjectIcons`, then `execSync` under `try`, with
`restoreProjectIcons` in the `finally`. On success the finally runs and the
icons are back at their original names. On failure the `catch` deletes the
whole destination directory (the renamed icon files with it) and calls
`error()`, whose `process.exit(1)` terminates the process without running
the `finally`; even if the finally did run, `restoreProjectIcons` checks
`fs.existsSync` on the `.bak` files, which are already deleted, so nothing
is restored either way. Returns the icon state and the ok flag; on failure
the caller's destination is removed. -/
def buildTryStep (buildSucceeds : Bool) (icons : IconState) :
    IconState × Bool :=
  let hidden := hideProjectIcons icons
  if buildSucceeds then (restoreProjectIcons hidden, true)
  else (IconState.absent, false)

/-- Icon state of the fresh destination: present at original names exactly
when a detected project root carries an `icon.ico`/`icon.icns` file. -/
def icons0 (env : Env) : IconState :=
  match findRenpyProjectRoot env.materializedTree with
  | some proj =>
    if proj.any (fun e => e.isFile &&
        (e.name = "icon.ico" || e.name = "icon.icns"))
    then .atOriginal else .absent
  | none => .absent

/-- Version resolution (lines 686-703): explicit `--version`, else the
filename pattern, else the prompt (default `1.0.0`; dry-run never
prompts). -/
def resolveVersion (env : Env) : String :=
  match env.args.version with
  | some v => v
  | none =>
    match env.versionFromFilename with
    | some v => v
    | none =>
      if env.args.dryRun then "1.0.0"
      else if env.promptVersion = "" then "1.0.0"
      else env.promptVersion

/-- The destination content at the entry-point check (line 872): the web
build output (after the one-level hoist) when a project was built, the
materialized source otherwise. -/
def finalTree (env : Env) : List FsEntry :=
  if (findRenpyProjectRoot env.materializedTree).isSome then env.builtTree
  else env.materializedTree

/-- The commit phase of `main` (lines 872-971): entry-point check with the
two distinct structure errors, entry-point selection, thumbnail copy, and
catalog upsert followed by `writeMetadata`. `w1` is the world after
materialization (and build, if any). -/
def commitPhase (env : Env) (w1 : World) : World × Outcome :=
  let tree := finalTree env
  match getRootHtmlFiles tree with
  | [] =>
    if (findRenpyDistributionRoot tree).isSome then
      ({ w1 with destExists := false, icons := .absent },
        .failure .distributionNotSource)
    else
      (w1, .failure .noHtmlFound)
  | files =>
    let entryPoint := (selectEntryPoint files env.promptEntry).getD ""
    let cand := findThumbnailCandidate tree
    let thumbnailPath :=
      match cand with
      | some c => "/images/games/" ++ env.args.gameId ++ c.2
      | none => "/images/games/" ++ env.args.gameId ++ ".png"
    let w2 :=
      match cand with
      | some c =>
        { w1 with thumbStore := (env.args.gameId ++ c.2) :: w1.thumbStore }
      | none => w1
    let catalog2 :=
      match w2.catalog.findIdx? (fun g => g.id = env.args.gameId) with
      | none =>
        let newGame : Game :=
          { id := env.args.gameId, name := env.newName,
            gtype := env.newType, version := resolveVersion env,
            description := env.newDescription, thumbnail := thumbnailPath,
            playable := decide (env.newType ≠ "download-only"),
            lastUpdated := env.today, entryPoint := entryPoint }
        w2.catalog ++ [newGame]
      | some i =>
        match w2.catalog.get? i with
        | some g =>
          let gUpd : Game :=
            { g with
              version := resolveVersion env,
              lastUpdated := env.today, entryPoint := entryPoint,
              thumbnail := if cand.isSome then thumbnailPath else g.thumbnail }
          w2.catalog.set i gUpd
        | none => w2.catalog
    ({ w2 with catalog := catalog2 }, .success)

/-- Model of `main` (lines 636-985): input checks, version resolution,
metadata read, dry-run early return, materialization with
clear-and-recreate, optional build orchestration with rollback on every
failure, and the commit phase. -/
def runMain (env : Env) (w : World) : World × Outcome :=
  if env.sourceExists then
    if env.sourceIsDir || env.zipOpens then
      if env.args.dryRun then (w, .success)
      else
        let w1 : World := { w with destExists := true, icons := icons0 env }
        if env.copyOk then
          if (findRenpyProjectRoot env.materializedTree).isSome then
            if env.sdkPresent then
              if env.webSupport then
                if env.launcherFound then
                  let bt := buildTryStep env.buildSucceeds w1.icons
                  if bt.2 then
                    let w2 : World := { w1 with icons := bt.1 }
                    if env.distBaseFound then
                      if env.webEntryFound then
                        match env.webOutputKind with
                        | .otherOutput =>
                          ({ w2 with destExists := false, icons := .absent },
                            .failure .unexpectedWebOutput)
                        | _ =>
                          commitPhase env { w2 with icons := .absent }
                      else
                        ({ w2 with destExists := false, icons := .absent },
                          .failure .webOutputMissing)
                    else
                      ({ w2 with destExists := false, icons := .absent },
                        .failure .distOutputMissing)
                  else
                    ({ w1 with destExists := false, icons := bt.1 },
                      .failure .buildFailed)
                else
                  ({ w1 with destExists := false, icons := .absent },
                    .failure .launcherMissing)
              else
                ({ w1 with destExists := false, icons := .absent },
                  .failure .webMissing)
            else
              ({ w1 with destExists := false, icons := .absent },
                .failure .sdkMissing)
          else
            commitPhase env w1
        else
          ({ w1 with destExists := false, icons := .absent },
            .failure .copyFailed)
    else (w, .failure .badZip)
  else (w, .failure .missingPath)

/-- Witness environment: a dry run of a zip source holding one HTML file. -/
def envDry : Env :=
  { args := ⟨"g1", some "1.0.0", true⟩,
    sourceExists := true, sourceIsDir := false,
    zipOpens := true, versionFromFilename := none, promptVersion := "",
    copyOk := true, materializedTree := [FsEntry.file "index.html" 500 true],
    sdkPresent := false, webSupport := false, launcherFound := false,
    buildSucceeds := false, distBaseFound := false, webEntryFound := false,
    webOutputKind := .dirOutput, builtTree := [], promptEntry := "",
    today := "2024-05-01", newName := "Game One", newType := "html",
    newDescription := "demo" }

/-- An initial world with one unrelated catalog entry. -/
def wBase : World :=
  ⟨[⟨"other", "Other", "html", "0.1", "d", "/images/games/other.png", true,
    "2024-01-01", "index.html"⟩], false, .absent, []⟩

/-- Witness environment: a Ren'Py project source whose SDK is missing. -/
def envBuildFail : Env :=
  { args := ⟨"g1", some "1.0.0", false⟩,
    sourceExists := true, sourceIsDir := false,
    zipOpens := true, versionFromFilename := none, promptVersion := "",
    copyOk := true,
    materializedTree :=
      [FsEntry.dir "MyVN" [FsEntry.dir "game" [FsEntry.file "script.rpy" 10 true]]],
    sdkPresent := false, webSupport := false, launcherFound := false,
    buildSucceeds := false, distBaseFound := false, webEntryFound := false,
    webOutputKind := .dirOutput, builtTree := [], promptEntry := "",
    today := "2024-05-01", newName := "Game One", newType := "renpy",
    newDescription := "demo" }

/-! ## Structure errors at the entry-point check (claim C3) -/

/-- Environment whose materialized destination holds no HTML file and no
compiled-distribution marker (a lone text file). -/
def envNoHtml : Env :=
  { args := ⟨"g1", some "1.0.0", false⟩,
    sourceExists := true, sourceIsDir := false,
    zipOpens := true, versionFromFilename := none, promptVersion := "",
    copyOk := true, materializedTree := [FsEntry.file "readme.txt" 5 true],
    sdkPresent := false, webSupport := false, launcherFound := false,
    buildSucceeds := false, distBaseFound := false, webEntryFound := false,
    webOutputKind := .dirOutput, builtTree := [], promptEntry := "",
    today := "2024-05-01", newName := "Game One", newType := "html",
    newDescription := "demo" }

/-- Witness environment: a compiled Ren'Py PC distribution (a `game/`
directory holding only `.rpyc` files) with no HTML at the root. -/
def envDist : Env :=
  { args := ⟨"g2", some "1.0.0", false⟩,
    sourceExists := true, sourceIsDir := true,
    zipOpens := false, versionFromFilename := none, promptVersion := "",
    copyOk := true,
    materializedTree :=
      [FsEntry.dir "game" [FsEntry.file "script.rpyc" 10 true]],
    sdkPresent := false, webSupport := false, launcherFound := false,
    buildSucceeds := false, distBaseFound := false, webEntryFound := false,
    webOutputKind := .dirOutput, builtTree := [], promptEntry := "",
    today := "2024-05-01", newName := "Game Two", newType := "renpy",
    newDescription := "demo" }

/-- Witness fixtures: a second ingestion of the already-catalogued `g1`
from a plain HTML source with no image file (so no thumbnail candidate). -/
def envUpd : Env :=
  { args := ⟨"g1", some "2.0.0", false⟩,
    sourceExists := true, sourceIsDir := false,
    zipOpens := true, versionFromFilename := none, promptVersion := "",
    copyOk := true, materializedTree := [FsEntry.file "index.html" 500 true],
    sdkPresent := false, webSupport := false, launcherFound := false,
    buildSucceeds := false, distBaseFound := false, webEntryFound := false,
    webOutputKind := .dirOutput, builtTree := [], promptEntry := "",
    today := "2024-06-01", newName := "Game One", newType := "html",
    newDescription := "demo" }

/-- The previously stored record for `g1`. -/
def gOld : Game :=
  ⟨"g1", "Game One", "html", "0.9", "old text", "/images/games/g1/logo.png",
    true, "2024-01-01", "index.html"⟩

/-- World holding `gOld` before the re-ingestion. -/
def wUpd : World := ⟨[gOld], false, .absent, []⟩

/-! # Theorems -/

/-- Recursion principle for `FsEntry` giving the inductive hypothesis for
every child of a directory. -/
theorem FsEntry.inductionOn {P : FsEntry → Prop}
    (hf : ∀ n s r, P (.file n s r))
    (hd : ∀ n cs, (∀ e ∈ cs, P e) → P (.dir n cs)) : ∀ e, P e
  | .file n s r => hf n s r
  | .dir n cs => hd n cs (fun e he =>
      have : sizeOf e < sizeOf (FsEntry.dir n cs) := by
        have h1 := List.sizeOf_lt_of_mem he
        simp only [FsEntry.dir.sizeOf_spec]
        omega
      FsEntry.inductionOn hf hd e)
termination_by e => sizeOf e

/-! ## Auxiliary list lemmas -/

/-- A list deduplicates to a singleton exactly when it is nonempty and all
its members are that element. -/
theorem dedup_eq_singleton_iff {α : Type} [DecidableEq α] (l : List α) (r : α) :
    l.dedup = [r] ↔ l ≠ [] ∧ ∀ s ∈ l, s = r := by
  induction l with
  | nil => simp
  | cons a t ih =>
    by_cases h : a ∈ t
    · rw [List.dedup_cons_of_mem h, ih]
      constructor
      · rintro ⟨ht, hall⟩
        refine ⟨List.cons_ne_nil a t, ?_⟩
        intro s hs
        rcases List.mem_cons.mp hs with rfl | hs
        · exact hall _ h
        · exact hall _ hs
      · rintro ⟨-, hall⟩
        refine ⟨?_, fun s hs => hall _ (List.mem_cons_of_mem _ hs)⟩
        intro hnil
        rw [hnil] at h
        exact absurd h (List.not_mem_nil a)
    · rw [List.dedup_cons_of_not_mem h]
      constructor
      · intro hc
        have hc' : a = r ∧ t.dedup = [] := by
          simpa using hc
        obtain ⟨rfl, hnil⟩ := hc'
        refine ⟨List.cons_ne_nil a t, ?_⟩
        intro s hs
        rcases List.mem_cons.mp hs with rfl | hs
        · rfl
        · exact absurd hs (by simp [(List.dedup_eq_nil t).mp hnil])
      · rintro ⟨-, hall⟩
        have ha : a = r := hall a (by simp)
        have ht : t = [] := by
          by_contra hne
          obtain ⟨b, hb⟩ := List.exists_mem_of_ne_nil t hne
          have hb' : b = r := hall b (List.mem_cons_of_mem _ hb)
          cases ha
          exact h (show r ∈ t from hb' ▸ hb)
        simp [ha, ht]

/-! ## Structure Planner characterizations (claim C2) -/

/-- The directory planner flattens exactly on a singleton listing whose sole
entry is a directory, with `rootFolder` that directory's name. -/
theorem getUnpackStructureFromDir_eq_iff (es : List FsEntry) (r : String) :
    getUnpackStructureFromDir es = ⟨true, some r⟩ ↔
      ∃ cs, es = [FsEntry.dir r cs] := by
  match es with
  | [] => simp [getUnpackStructureFromDir]
  | [FsEntry.file n sz rd] =>
    simp [getUnpackStructureFromDir, FsEntry.isDir]
  | [FsEntry.dir n cs] =>
    simp [getUnpackStructureFromDir, FsEntry.isDir, FsEntry.name]
  | e₁ :: e₂ :: rest =>
    constructor
    · intro h
      exfalso
      have hlen : (e₁ :: e₂ :: rest).length ≠ 1 := by simp
      simp only [getUnpackStructureFromDir] at h
      rw [if_neg (by intro hc; exact hlen hc.2)] at h
      exact absurd (congrArg UnpackPlan.flatten h) (by simp)
    · rintro ⟨cs', h⟩
      exact absurd (congrArg List.length h) (by simp)

/-- The zip planner flattens exactly when the entries have a nonempty,
constant family of first segments (a single distinct top-level name),
with `rootFolder` that name — container-ness of the entry is not consulted. -/
theorem getUnpackStructure_eq_iff (entries : List ZipEntry) (r : String) :
    getUnpackStructure entries = ⟨true, some r⟩ ↔
      topSegs entries ≠ [] ∧ ∀ s ∈ topSegs entries, s = r := by
  rw [← dedup_eq_singleton_iff]
  cases h : (topSegs entries).dedup with
  | nil => simp [getUnpackStructure, zipTopLevel, h]
  | cons a t =>
    cases t with
    | nil =>
      simp only [getUnpackStructure, zipTopLevel, h]
      constructor
      · intro hc
        have : a = r := by
          have := congrArg UnpackPlan.rootFolder hc
          simpa using this
        rw [this]
      · intro hc
        injection hc with h1 _
        cases h1
        rfl
    | cons b t' => simp [getUnpackStructure, zipTopLevel, h]

/-- C2 (counterexample): a zip whose single top-level entry is a plain file
(`foo.txt`, not a container) gets `flatten = true` from `getUnpackStructure`,
contradicting the claim that such a source yields `flatten = false` for both
zip and directory sources. -/
theorem singleFileZipFlattens :
    (ZipEntry.isDirectory ⟨"foo.txt", false⟩ = false) ∧
    getUnpackStructure [⟨"foo.txt", false⟩] = ⟨true, some "foo.txt"⟩ := by
  constructor
  · rfl
  · decide

/-- C2 (amended): the directory planner flattens exactly when the source has
one top-level entry and it is a container (zero entries and single-file
sources yield `flatten = false`); the zip planner instead flattens exactly
when the entries share one distinct top-level name, whether or not that name
denotes a container, with zero entries yielding `flatten = false`. -/
theorem unpackPlan_flatten_spec :
    ∀ (es : List FsEntry) (entries : List ZipEntry) (r : String),
      (getUnpackStructureFromDir es = ⟨true, some r⟩ ↔
        ∃ cs, es = [FsEntry.dir r cs]) ∧
      getUnpackStructureFromDir [] = ⟨false, none⟩ ∧
      (∀ n sz rd, getUnpackStructureFromDir [FsEntry.file n sz rd] =
        ⟨false, none⟩) ∧
      (getUnpackStructure entries = ⟨true, some r⟩ ↔
        topSegs entries ≠ [] ∧ ∀ s ∈ topSegs entries, s = r) ∧
      getUnpackStructure [] = ⟨false, none⟩ := by
  intro es entries r
  refine ⟨getUnpackStructureFromDir_eq_iff es r, by decide, ?_, ?_, by decide⟩
  · intro n sz rd
    simp [getUnpackStructureFromDir, FsEntry.isDir]
  · exact getUnpackStructure_eq_iff entries r

/-! ## String and character-list lemmas for zip entry names -/

@[simp]
theorem str_empty_append (s : String) : "" ++ s = s :=
  String.ext (by simp [String.data_append])

theorem str_append_assoc (a b c : String) : a ++ b ++ c = a ++ (b ++ c) :=
  String.ext (by simp [String.data_append])

theorem data_slash_append (a b : String) :
    (a ++ "/" ++ b).data = a.data ++ '/' :: b.data := by
  simp [String.data_append]

theorem jsToLower_append (a b : String) :
    jsToLower (a ++ b) = jsToLower a ++ jsToLower b :=
  String.ext (by simp [jsToLower, String.data_append])

theorem jsToLower_slash_append (a b : String) :
    (jsToLower (a ++ "/" ++ b)).data =
      (jsToLower a).data ++ '/' :: (jsToLower b).data := by
  rw [jsToLower_append, jsToLower_append]
  rw [show jsToLower "/" = "/" from rfl]
  exact data_slash_append _ _

theorem jsStartsWith_iff (s p : String) :
    jsStartsWith s p = true ↔ p.data <+: s.data := by
  simp [jsStartsWith, List.isPrefixOf_iff_prefix]

theorem jsEndsWith_iff (s p : String) :
    jsEndsWith s p = true ↔ p.data <:+ s.data := by
  simp [jsEndsWith, List.isSuffixOf_iff_suffix]

/-- A nonempty list that is a suffix of `xs ++ ['/']` contains `'/'`. -/
theorem mem_slash_of_suffix {c : Char} {rest xs : List Char}
    (h : (c :: rest) <:+ xs ++ ['/']) : '/' ∈ c :: rest := by
  have h2 : (c :: rest).reverse <+: (xs ++ ['/']).reverse :=
    List.reverse_prefix.mpr h
  rw [List.reverse_append] at h2
  obtain ⟨t, ht⟩ := h2
  rw [show (c :: rest).reverse = rest.reverse ++ [c] from List.reverse_cons c rest] at ht
  cases hr : rest.reverse with
  | nil =>
    rw [hr] at ht
    simp at ht
    rw [← List.mem_reverse]
    simp [hr, ht.1]
  | cons d l' =>
    rw [hr] at ht
    have hd : d = '/' := by
      have := congrArg List.head? ht
      simpa using this
    rw [← List.mem_reverse, List.reverse_cons, hr, hd]
    simp

/-- A slash-free suffix can be tested after the last path separator: being a
suffix of `xs ++ '/' :: ms` is the same as being a suffix of `ms`. -/
theorem suffix_through_slash {sfx : List Char} (xs ms : List Char)
    (h : '/' ∉ sfx) : sfx <:+ (xs ++ '/' :: ms) ↔ sfx <:+ ms := by
  constructor
  · rintro ⟨t, ht⟩
    rw [show xs ++ '/' :: ms = (xs ++ ['/']) ++ ms by simp] at ht
    rcases List.append_eq_append_iff.mp ht with ⟨a', ha1, ha2⟩ | ⟨c', hc1, hc2⟩
    · cases a' with
      | nil =>
        exact ⟨[], by simpa using ha2⟩
      | cons c restc =>
        exfalso
        have hsuf : (c :: restc) <:+ xs ++ ['/'] := ⟨t, ha1.symm⟩
        exact h (ha2 ▸ List.mem_append_left ms (mem_slash_of_suffix hsuf))
    · exact ⟨c', hc2.symm⟩
  · rintro ⟨t, ht⟩
    exact ⟨(xs ++ ['/']) ++ t, by simp [ht]⟩

/-- Two slash-free segments followed by `'/'` match only when equal. -/
theorem slash_append_inj {b : List Char} (a t r : List Char)
    (ha : '/' ∉ a) (hb : '/' ∉ b)
    (h : b ++ '/' :: t = a ++ '/' :: r) : b = a ∧ t = r := by
  induction b generalizing a with
  | nil =>
    cases a with
    | nil => simpa using h
    | cons d a' =>
      exfalso
      have : '/' = d := by
        have := congrArg List.head? h
        simpa using this
      exact ha (this ▸ List.mem_cons_self d a')
  | cons c b' ih =>
    cases a with
    | nil =>
      exfalso
      have : c = '/' := by
        have := congrArg List.head? h
        simpa using this
      exact hb (this ▸ List.mem_cons_self c b')
    | cons d a' =>
      have hcd : c = d := by
        have := congrArg List.head? h
        simpa using this
      have htail : b' ++ '/' :: t = a' ++ '/' :: r := by
        have := congrArg List.tail h
        simpa using this
      obtain ⟨h1, h2⟩ := ih a' (fun hm => ha (List.mem_cons_of_mem d hm))
        (fun hm => hb (List.mem_cons_of_mem c hm)) htail
      exact ⟨by rw [hcd, h1], h2⟩

/-- `b ++ "/"` is a prefix of `a ++ '/' :: rest` exactly when the slash-free
segments `a` and `b` coincide. -/
theorem prefix_slash_iff {a b : List Char} (rest : List Char)
    (ha : '/' ∉ a) (hb : '/' ∉ b) :
    (b ++ ['/']) <+: (a ++ '/' :: rest) ↔ b = a := by
  constructor
  · rintro ⟨t, ht⟩
    have ht' : b ++ '/' :: t = a ++ '/' :: rest := by simpa using ht
    exact (slash_append_inj a t rest ha hb ht').1
  · rintro rfl
    exact ⟨rest, by simp⟩

/-- `b ++ "/"` is never a prefix of a slash-free list. -/
theorem not_prefix_slash_of_noslash {b m : List Char} (hm : '/' ∉ m) :
    ¬ (b ++ ['/']) <+: m := by
  intro h
  exact hm (h.subset (List.mem_append_right b (List.mem_singleton_self '/')))

/-! ## Splitting entry names into segments -/

/-- Splitting a slash-free nonempty name yields exactly that name. -/
theorem splitSlashNonempty_noslash {n : String} (hn : n ≠ "")
    (h : '/' ∉ n.data) : splitSlashNonempty n = [n] := by
  have hs : n.data.splitOn '/' = [n.data] :=
    List.splitOnP_eq_single _ _ (by
      intro x hx
      simp only [beq_iff_eq]
      intro hx'
      exact h (hx' ▸ hx))
  simp [splitSlashNonempty, splitSlash, hs, List.filter_cons, hn]

/-- The first nonempty segment of `n ++ '/' :: ms` is `n` when `n` is a
slash-free nonempty name. -/
theorem splitSlashNonempty_slash_head {n : String} (ms : List Char)
    (hn : n ≠ "") (h : '/' ∉ n.data) :
    (splitSlashNonempty ⟨n.data ++ '/' :: ms⟩).head? = some n := by
  have hs : (n.data ++ '/' :: ms).splitOn '/' = n.data :: ms.splitOn '/' :=
    List.splitOnP_first _ _ (by
      intro x hx
      simp only [beq_iff_eq]
      intro hx'
      exact h (hx' ▸ hx)) '/' (by simp) ms
  have : splitSlashNonempty ⟨n.data ++ '/' :: ms⟩ =
      (n :: (ms.splitOn '/').map (⟨·⟩)).filter (· ≠ "") := by
    simp [splitSlashNonempty, splitSlash, hs]
  rw [this, List.filter_cons]
  simp [hn]

/-! ## Well-formedness unfoldings -/

theorem allWf_iff (es : List FsEntry) :
    allWf es = true ↔ ∀ e ∈ es, FsEntry.wf e = true := by
  induction es with
  | nil => simp [allWf]
  | cons e t ih => simp [allWf, Bool.and_eq_true, ih]

theorem wfList_iff (es : List FsEntry) :
    wfList es = true ↔
      (∀ e ∈ es, FsEntry.wf e = true) ∧ (es.map FsEntry.name).Nodup := by
  simp [wfList, Bool.and_eq_true, allWf_iff]

theorem wf_name_ne {e : FsEntry} (h : FsEntry.wf e = true) : e.name ≠ "" := by
  cases e with
  | file n sz rd =>
    simp [FsEntry.wf, Bool.and_eq_true] at h
    simpa [FsEntry.name] using h.1
  | dir n cs =>
    simp [FsEntry.wf, Bool.and_eq_true] at h
    simpa [FsEntry.name] using h.1.1.1

theorem wf_name_noslash {e : FsEntry} (h : FsEntry.wf e = true) :
    '/' ∉ e.name.data := by
  cases e with
  | file n sz rd =>
    simp [FsEntry.wf, Bool.and_eq_true] at h
    simpa [FsEntry.name] using h.2
  | dir n cs =>
    simp [FsEntry.wf, Bool.and_eq_true] at h
    simpa [FsEntry.name] using h.1.1.2

theorem wf_dir_children {n : String} {cs : List FsEntry}
    (h : FsEntry.wf (.dir n cs) = true) : wfList cs = true := by
  simp [FsEntry.wf, Bool.and_eq_true] at h
  rw [wfList_iff]
  exact ⟨(allWf_iff cs).mp h.1.2, h.2⟩

theorem zipEntriesOfList_map_aux (pfx : String) (es : List FsEntry)
    (ih : ∀ e ∈ es, ∀ q,
      zipEntriesOfEntry q e = (zipEntriesOfEntry "" e).map (prependZip q)) :
    zipEntriesOfList pfx es = (zipEntriesOfList "" es).map (prependZip pfx) := by
  induction es with
  | nil => simp [zipEntriesOfList]
  | cons e t iht =>
    have he := ih e (List.mem_cons_self e t)
    have ht := iht (fun e' he' q => ih e' (List.mem_cons_of_mem e he') q)
    simp only [zipEntriesOfList, List.map_append]
    rw [he pfx, ht]

/-- Every zip entry of a subtree carries the accumulated pfx in front of
its pfx-free entry name. -/
theorem zipEntriesOfEntry_map (e : FsEntry) : ∀ q,
    zipEntriesOfEntry q e = (zipEntriesOfEntry "" e).map (prependZip q) := by
  induction e using FsEntry.inductionOn with
  | hf n s r =>
    intro q
    simp [zipEntriesOfEntry, prependZip]
  | hd n cs ih =>
    intro q
    simp only [zipEntriesOfEntry, List.map_cons, str_empty_append]
    rw [zipEntriesOfList_map_aux (q ++ n ++ "/") cs ih,
      zipEntriesOfList_map_aux (n ++ "/") cs ih, List.map_map]
    congr 1
    · simp [prependZip, str_append_assoc]
    · refine List.map_congr_left ?_
      intro z hz
      simp [prependZip, Function.comp, str_append_assoc]

/-- List version of `zipEntriesOfEntry_map`. -/
theorem zipEntriesOfList_map (pfx : String) (es : List FsEntry) :
    zipEntriesOfList pfx es = (zipEntriesOfList "" es).map (prependZip pfx) :=
  zipEntriesOfList_map_aux pfx es (fun e _ => zipEntriesOfEntry_map e)

/-! ## Top-level names of a packed tree -/

theorem zipEntriesOfEntry_ne_nil (e : FsEntry) (q : String) :
    zipEntriesOfEntry q e ≠ [] := by
  cases e <;> simp [zipEntriesOfEntry]

/-- Every zip entry generated by one top-level tree entry has that entry's
name as its first segment. -/
theorem topSeg_zipEntriesOfEntry {e : FsEntry} (hwf : FsEntry.wf e = true) :
    ∀ z ∈ zipEntriesOfEntry "" e, topSeg z = some e.name := by
  have hne : e.name ≠ "" := wf_name_ne hwf
  have hns : '/' ∉ e.name.data := wf_name_noslash hwf
  cases e with
  | file n sz rd =>
    intro z hz
    simp [zipEntriesOfEntry] at hz
    subst hz
    simp only [topSeg]
    rw [splitSlashNonempty_noslash (by simpa [FsEntry.name] using hne)
      (by simpa [FsEntry.name] using hns)]
    simp [FsEntry.name]
  | dir n cs =>
    intro z hz
    simp only [FsEntry.name] at hne hns
    simp only [zipEntriesOfEntry, str_empty_append, List.mem_cons] at hz
    rcases hz with rfl | hz
    · simp only [topSeg]
      have : (n ++ "/" : String) = ⟨n.data ++ '/' :: ([] : List Char)⟩ :=
        String.ext (by simp [String.data_append])
      rw [this, splitSlashNonempty_slash_head _ hne hns]
      simp [FsEntry.name]
    · rw [zipEntriesOfList_map (n ++ "/") cs] at hz
      obtain ⟨z', hz', rfl⟩ := List.mem_map.mp hz
      simp only [topSeg, prependZip]
      have : ((n ++ "/") ++ z'.entryName : String) =
          ⟨n.data ++ '/' :: z'.entryName.data⟩ :=
        String.ext (by simp [data_slash_append])
      rw [this, splitSlashNonempty_slash_head _ hne hns]
      simp [FsEntry.name]

theorem name_mem_topSegs_block {e : FsEntry} (hwf : FsEntry.wf e = true) :
    e.name ∈ topSegs (zipEntriesOfEntry "" e) := by
  obtain ⟨z, hz⟩ := List.exists_mem_of_ne_nil _ (zipEntriesOfEntry_ne_nil e "")
  exact List.mem_filterMap.mpr ⟨z, hz, topSeg_zipEntriesOfEntry hwf z hz⟩

/-- The zip planner flattens a packed singleton tree onto its root name. -/
theorem getUnpackStructure_zipOfTree_single {e : FsEntry}
    (hwf : FsEntry.wf e = true) :
    getUnpackStructure (zipOfTree [e]) = ⟨true, some e.name⟩ := by
  rw [getUnpackStructure_eq_iff]
  have hblock : zipOfTree [e] = zipEntriesOfEntry "" e := by
    simp [zipOfTree, zipEntriesOfList]
  rw [hblock]
  constructor
  · exact List.ne_nil_of_mem (name_mem_topSegs_block hwf)
  · intro s hs
    obtain ⟨z, hz, hzs⟩ := List.mem_filterMap.mp hs
    have := topSeg_zipEntriesOfEntry hwf z hz
    rw [this] at hzs
    exact ((Option.some.injEq _ _).mp hzs).symm

/-- The zip planner does not flatten a packed tree with two or more
(distinctly named) top-level entries. -/
theorem getUnpackStructure_zipOfTree_multi {e₁ e₂ : FsEntry}
    {rest : List FsEntry} (h : wfList (e₁ :: e₂ :: rest) = true) :
    getUnpackStructure (zipOfTree (e₁ :: e₂ :: rest)) = ⟨false, none⟩ := by
  obtain ⟨hall, hnodup⟩ := (wfList_iff _).mp h
  have hwf1 : FsEntry.wf e₁ = true := hall e₁ (by simp)
  have hwf2 : FsEntry.wf e₂ = true := hall e₂ (by simp)
  have hne : e₁.name ≠ e₂.name := by
    simp only [List.map_cons, List.nodup_cons, List.mem_cons] at hnodup
    intro hc
    exact hnodup.1 (Or.inl hc)
  have hsplit : zipOfTree (e₁ :: e₂ :: rest) =
      zipEntriesOfEntry "" e₁ ++
        (zipEntriesOfEntry "" e₂ ++ zipEntriesOfList "" rest) := by
    simp [zipOfTree, zipEntriesOfList]
  have hmem1 : e₁.name ∈ topSegs (zipOfTree (e₁ :: e₂ :: rest)) := by
    rw [hsplit, topSegs, List.filterMap_append]
    exact List.mem_append_left _ (name_mem_topSegs_block hwf1)
  have hmem2 : e₂.name ∈ topSegs (zipOfTree (e₁ :: e₂ :: rest)) := by
    rw [hsplit, topSegs, List.filterMap_append, List.filterMap_append]
    exact List.mem_append_right _
      (List.mem_append_left _ (name_mem_topSegs_block hwf2))
  unfold getUnpackStructure
  cases hd : zipTopLevel (zipOfTree (e₁ :: e₂ :: rest)) with
  | nil => rfl
  | cons a t =>
    cases t with
    | nil =>
      exfalso
      have hs := (dedup_eq_singleton_iff _ a).mp hd
      exact hne ((hs.2 _ hmem1).trans (hs.2 _ hmem2).symm)
    | cons b t' => rfl

/-! ## Matching game-content entries in a packed tree -/

theorem jsStartsWith_empty (s : String) : jsStartsWith s "" = true :=
  (jsStartsWith_iff s "").mpr (by simp)

/-- A slash-terminated lowered name never ends with a nonempty slash-free
suffix. -/
theorem jsEndsWith_toLower_dirname {sfx : String} (n : String)
    (hs1 : sfx ≠ "") (hs2 : '/' ∉ sfx.data) :
    jsEndsWith (jsToLower (n ++ "/")) sfx = false := by
  cases hb : jsEndsWith (jsToLower (n ++ "/")) sfx with
  | false => rfl
  | true =>
    exfalso
    have h := (jsEndsWith_iff _ _).mp hb
    rw [jsToLower_append, show jsToLower "/" = "/" from rfl] at h
    have hdata : (jsToLower n ++ "/").data =
        (jsToLower n).data ++ '/' :: ([] : List Char) := by
      simp [String.data_append]
    rw [hdata] at h
    have := (suffix_through_slash _ _ hs2).mp h
    rw [List.suffix_nil] at this
    exact hs1 (by
      apply String.ext
      simpa using this)

/-- Testing a slash-free suffix on a name below a directory reduces to
testing it on the pfx-free remainder. -/
theorem jsEndsWith_toLower_nested {sfx : String} (n rel : String)
    (hs2 : '/' ∉ sfx.data) :
    jsEndsWith (jsToLower (n ++ "/" ++ rel)) sfx =
      jsEndsWith (jsToLower rel) sfx := by
  rw [Bool.eq_iff_iff, jsEndsWith_iff, jsEndsWith_iff, jsToLower_slash_append]
  exact suffix_through_slash _ _ hs2

/-- Pointwise-equal predicates give equal `any` scans. -/
theorem any_congr_mem {α : Type} {l : List α} {f g : α → Bool}
    (h : ∀ a ∈ l, f a = g a) : l.any f = l.any g := by
  induction l with
  | nil => rfl
  | cons x t ih =>
    simp only [List.any_cons, h x (List.mem_cons_self x t)]
    rw [ih (fun a ha => h a (List.mem_cons_of_mem x ha))]

theorem hasGameEntryWithSuffix_empty (entries : List ZipEntry) (sfx : String) :
    hasGameEntryWithSuffix entries "" sfx = entries.any (zipMatch sfx) := by
  unfold hasGameEntryWithSuffix
  simp only [if_pos rfl]
  refine any_congr_mem ?_
  intro z hz
  simp [jsStartsWith_empty, zipMatch]

/-- Suffix scan over the packed form of a listing, given the per-entry fact. -/
theorem anyEndsWith_list_aux (sfx : String) (es : List FsEntry)
    (ih : ∀ e ∈ es, (zipEntriesOfEntry "" e).any
      (fun z => jsEndsWith (jsToLower z.entryName) sfx) = entryContainsExt sfx e) :
    (zipEntriesOfList "" es).any
      (fun z => jsEndsWith (jsToLower z.entryName) sfx) = dirContainsExt sfx es := by
  induction es with
  | nil => simp [zipEntriesOfList, dirContainsExt]
  | cons e t iht =>
    simp only [zipEntriesOfList, List.any_append, dirContainsExt]
    rw [ih e (List.mem_cons_self e t),
      iht (fun e' he' => ih e' (List.mem_cons_of_mem e he'))]

/-- Scanning the packed form of one entry for a slash-free suffix agrees with
the recursive directory scan `entryContainsExt`. -/
theorem anyEndsWith_block {sfx : String} (hs1 : sfx ≠ "")
    (hs2 : '/' ∉ sfx.data) (e : FsEntry) :
    (zipEntriesOfEntry "" e).any
      (fun z => jsEndsWith (jsToLower z.entryName) sfx) =
      entryContainsExt sfx e := by
  induction e using FsEntry.inductionOn with
  | hf n s r => simp [zipEntriesOfEntry, entryContainsExt]
  | hd n cs ih =>
    simp only [zipEntriesOfEntry, str_empty_append, List.any_cons,
      entryContainsExt]
    rw [jsEndsWith_toLower_dirname n hs1 hs2]
    rw [zipEntriesOfList_map (n ++ "/") cs, List.any_map]
    have hstep : (zipEntriesOfList "" cs).any
        ((fun z => jsEndsWith (jsToLower z.entryName) sfx) ∘ prependZip (n ++ "/")) =
        (zipEntriesOfList "" cs).any
          (fun z => jsEndsWith (jsToLower z.entryName) sfx) := by
      refine any_congr_mem ?_
      intro z hz
      simp only [Function.comp, prependZip]
      exact jsEndsWith_toLower_nested n z.entryName hs2
    rw [hstep, anyEndsWith_list_aux sfx cs ih]
    simp

/-! ## childDir unfoldings -/

theorem childDir_cons_file (n : String) (sz : Nat) (rd : Bool)
    (t : List FsEntry) (nm : String) :
    childDir (FsEntry.file n sz rd :: t) nm =
      if n = nm then none else childDir t nm := by
  by_cases h : n = nm
  · simp [childDir, List.find?_cons_of_pos, FsEntry.name, h]
  · simp [childDir, List.find?_cons_of_neg, FsEntry.name, h]

theorem childDir_cons_dir (n : String) (cs : List FsEntry)
    (t : List FsEntry) (nm : String) :
    childDir (FsEntry.dir n cs :: t) nm =
      if n = nm then some cs else childDir t nm := by
  by_cases h : n = nm
  · simp [childDir, List.find?_cons_of_pos, FsEntry.name, h]
  · simp [childDir, List.find?_cons_of_neg, FsEntry.name, h]

theorem childDir_eq_none {es : List FsEntry} {nm : String}
    (h : nm ∉ es.map FsEntry.name) : childDir es nm = none := by
  unfold childDir
  rw [List.find?_eq_none.mpr ?_]
  · intro e he
    simp only [decide_eq_true_eq]
    intro hc
    exact h (List.mem_map.mpr ⟨e, he, hc⟩)

/-! ## Matching the per-entry zip condition against the tree -/

theorem jsStartsWith_gameSlash_file {n : String} (hns : '/' ∉ n.data) :
    jsStartsWith n "game/" = false := by
  cases hb : jsStartsWith n "game/" with
  | false => rfl
  | true =>
    exfalso
    have h := (jsStartsWith_iff _ _).mp hb
    have hgd : ("game/" : String).data = ("game" : String).data ++ ['/'] := by
      decide
    rw [hgd] at h
    exact not_prefix_slash_of_noslash hns h

theorem jsStartsWith_gameSlash_under {n rel : String} (hns : '/' ∉ n.data) :
    jsStartsWith (n ++ "/" ++ rel) "game/" = true ↔ n = "game" := by
  rw [jsStartsWith_iff, data_slash_append]
  have hgd : ("game/" : String).data = ("game" : String).data ++ ['/'] := by
    decide
  rw [hgd, prefix_slash_iff _ hns (by decide)]
  constructor
  · intro h
    exact (String.ext h).symm
  · intro h
    rw [h]

/-- The zip scan of one packed top-level entry matches exactly when the entry
is a directory named `game` whose children contain the suffix. -/
theorem zipMatch_block {sfx : String} (hs1 : sfx ≠ "") (hs2 : '/' ∉ sfx.data)
    {e : FsEntry} (hwf : FsEntry.wf e = true) :
    (zipEntriesOfEntry "" e).any (zipMatch sfx) =
      (match e with
       | .dir n cs => if n = "game" then dirContainsExt sfx cs else false
       | .file _ _ _ => false) := by
  cases e with
  | file n sz rd =>
    have hns : '/' ∉ n.data := by
      simpa [FsEntry.name] using wf_name_noslash hwf
    simp [zipEntriesOfEntry, zipMatch, jsStartsWith_gameSlash_file hns]
  | dir n cs =>
    have hns : '/' ∉ n.data := by
      simpa [FsEntry.name] using wf_name_noslash hwf
    simp only [zipEntriesOfEntry, str_empty_append, List.any_cons]
    have hhead : zipMatch sfx ⟨n ++ "/", true⟩ = false := by
      simp [zipMatch, jsEndsWith_toLower_dirname n hs1 hs2]
    rw [hhead, Bool.false_or, zipEntriesOfList_map (n ++ "/") cs, List.any_map]
    by_cases hn : n = "game"
    · subst hn
      have hstep : (zipEntriesOfList "" cs).any (zipMatch sfx ∘ prependZip ("game" ++ "/")) =
          (zipEntriesOfList "" cs).any
            (fun z => jsEndsWith (jsToLower z.entryName) sfx) := by
        refine any_congr_mem ?_
        intro z hz
        simp only [Function.comp, prependZip, zipMatch]
        rw [Bool.eq_iff_iff]
        constructor
        · intro hb
          rw [Bool.and_eq_true] at hb
          rw [← jsEndsWith_toLower_nested "game" z.entryName hs2]
          exact hb.2
        · intro hb
          rw [Bool.and_eq_true]
          refine ⟨(jsStartsWith_gameSlash_under hns).mpr rfl, ?_⟩
          rw [jsEndsWith_toLower_nested "game" z.entryName hs2]
          exact hb
      rw [hstep, anyEndsWith_list_aux sfx cs
        (fun e' _ => anyEndsWith_block hs1 hs2 e')]
      simp
    · have hstep : (zipEntriesOfList "" cs).any (zipMatch sfx ∘ prependZip (n ++ "/")) =
          (zipEntriesOfList "" cs).any (fun _ => false) := by
        refine any_congr_mem ?_
        intro z hz
        simp only [Function.comp, prependZip, zipMatch]
        have : jsStartsWith (n ++ "/" ++ z.entryName) "game/" = false := by
          cases hb : jsStartsWith (n ++ "/" ++ z.entryName) "game/" with
          | false => rfl
          | true => exact absurd ((jsStartsWith_gameSlash_under hns).mp hb) hn
        rw [this, Bool.false_and]
      rw [hstep]
      simp [hn]

/-- `zipMatch_block` specialised to a file entry. -/
theorem zipMatch_block_file {sfx : String} (hs1 : sfx ≠ "")
    (hs2 : '/' ∉ sfx.data) {n : String} {sz : Nat} {rd : Bool}
    (hwf : FsEntry.wf (.file n sz rd) = true) :
    (zipEntriesOfEntry "" (.file n sz rd)).any (zipMatch sfx) = false := by
  have h := zipMatch_block hs1 hs2 hwf
  simpa using h

/-- `zipMatch_block` specialised to a directory entry. -/
theorem zipMatch_block_dir {sfx : String} (hs1 : sfx ≠ "")
    (hs2 : '/' ∉ sfx.data) {n : String} {cs : List FsEntry}
    (hwf : FsEntry.wf (.dir n cs) = true) :
    (zipEntriesOfEntry "" (.dir n cs)).any (zipMatch sfx) =
      if n = "game" then dirContainsExt sfx cs else false := by
  have h := zipMatch_block hs1 hs2 hwf
  simpa using h

theorem dirHasRenpyGame_eq_dirGameExt (es : List FsEntry) :
    dirHasRenpyGame es = dirGameExt ".rpy" es := rfl

theorem dirHasRenpyDistribution_eq_dirGameExt (es : List FsEntry) :
    dirHasRenpyDistribution es =
      (dirGameExt ".rpyc" es && !dirGameExt ".rpy" es) := by
  unfold dirHasRenpyDistribution dirGameExt
  cases childDir es "game" <;>
    simp [dirContainsRpy, dirContainsRpyc]

theorem dirGameExt_cons_file (sfx n : String) (sz : Nat) (rd : Bool)
    (t : List FsEntry) :
    dirGameExt sfx (FsEntry.file n sz rd :: t) =
      if n = "game" then false else dirGameExt sfx t := by
  unfold dirGameExt
  rw [childDir_cons_file]
  by_cases hn : n = "game" <;> simp [hn]

theorem dirGameExt_cons_dir (sfx n : String) (cs t : List FsEntry) :
    dirGameExt sfx (FsEntry.dir n cs :: t) =
      if n = "game" then dirContainsExt sfx cs else dirGameExt sfx t := by
  unfold dirGameExt
  rw [childDir_cons_dir]
  by_cases hn : n = "game" <;> simp [hn]

/-- An empty-pfx zip scan of a packed tree agrees with the directory-side
`game/` test. -/
theorem hasGame_zipOfTree {sfx : String} (hs1 : sfx ≠ "")
    (hs2 : '/' ∉ sfx.data) :
    ∀ es : List FsEntry, wfList es = true →
      hasGameEntryWithSuffix (zipOfTree es) "" sfx = dirGameExt sfx es := by
  intro es h
  induction es with
  | nil => rfl
  | cons e t ih =>
    obtain ⟨hall, hnodup⟩ := (wfList_iff _).mp h
    have hwfe : FsEntry.wf e = true := hall e (List.mem_cons_self e t)
    have hwft : wfList t = true := (wfList_iff t).mpr
      ⟨fun e' he' => hall e' (List.mem_cons_of_mem e he'),
        (List.nodup_cons.mp (by simpa using hnodup)).2⟩
    have hnamet : e.name ∉ t.map FsEntry.name :=
      (List.nodup_cons.mp (by simpa using hnodup)).1
    have hsplit : zipOfTree (e :: t) =
        zipEntriesOfEntry "" e ++ zipOfTree t := by
      simp [zipOfTree, zipEntriesOfList]
    have ht : (zipOfTree t).any (zipMatch sfx) = dirGameExt sfx t := by
      rw [← hasGameEntryWithSuffix_empty]
      exact ih hwft
    cases e with
    | file n sz rd =>
      rw [hasGameEntryWithSuffix_empty, hsplit, List.any_append, ht,
        zipMatch_block_file hs1 hs2 hwfe]
      simp only [Bool.false_or]
      rw [dirGameExt_cons_file]
      by_cases hn : n = "game"
      · have hnone : childDir t "game" = none := by
          apply childDir_eq_none
          simpa [FsEntry.name, hn] using hnamet
        rw [if_pos hn]
        simp [dirGameExt, hnone]
      · rw [if_neg hn]
    | dir n cs =>
      rw [hasGameEntryWithSuffix_empty, hsplit, List.any_append, ht,
        zipMatch_block_dir hs1 hs2 hwfe]
      rw [dirGameExt_cons_dir]
      by_cases hn : n = "game"
      · have hnone : childDir t "game" = none := by
          apply childDir_eq_none
          simpa [FsEntry.name, hn] using hnamet
        have hzero : dirGameExt sfx t = false := by
          simp [dirGameExt, hnone]
        rw [if_pos hn, if_pos hn, hzero, Bool.or_false]
      · rw [if_neg hn, if_neg hn, Bool.false_or]

/-- Scanning a packed singleton directory with its own name as pfx is the
empty-pfx scan of its children. -/
theorem hasGame_zipOfTree_under {sfx : String} {n : String}
    {cs : List FsEntry} (hne : n ≠ "") :
    hasGameEntryWithSuffix (zipOfTree [FsEntry.dir n cs]) n sfx =
      hasGameEntryWithSuffix (zipOfTree cs) "" sfx := by
  have hsplit : zipOfTree [FsEntry.dir n cs] =
      (⟨n ++ "/", true⟩ : ZipEntry) ::
        (zipOfTree cs).map (prependZip (n ++ "/")) := by
    simp [zipOfTree, zipEntriesOfList, zipEntriesOfEntry,
      zipEntriesOfList_map (n ++ "/") cs]
  rw [hsplit, hasGameEntryWithSuffix_empty]
  unfold hasGameEntryWithSuffix
  simp only [if_neg hne]
  have h1 : jsStartsWith (n ++ "/") (n ++ "/") = true :=
    (jsStartsWith_iff _ _).mpr (List.prefix_refl _)
  have h2 : jsSlice (n ++ "/") (jsLength (n ++ "/")) = "" := by
    apply String.ext
    show List.drop ((n ++ "/").data.length) ((n ++ "/").data) = []
    exact List.drop_length _
  have h3 : jsStartsWith "" "game/" = false := by decide
  simp only [List.any_cons, List.any_map, h1, h2, h3, Bool.not_true,
    Bool.false_and, Bool.false_eq_true, if_false, Bool.false_or]
  refine any_congr_mem ?_
  intro z hz
  have hstart : jsStartsWith ((n ++ "/") ++ z.entryName) (n ++ "/") = true :=
    (jsStartsWith_iff _ _).mpr (by
      rw [String.data_append]
      exact List.prefix_append _ _)
  have hslice : jsSlice ((n ++ "/") ++ z.entryName) (jsLength (n ++ "/")) =
      z.entryName := by
    apply String.ext
    show List.drop ((n ++ "/").data.length) (((n ++ "/") ++ z.entryName).data) =
      z.entryName.data
    rw [String.data_append]
    exact List.drop_left _ _
  simp only [Function.comp, prependZip, hstart, hslice, Bool.not_true,
    Bool.false_eq_true, if_false, zipMatch]

/-- The zip classifiers are vacuous on a packed single file scanned under its
own name. -/
theorem hasGame_singleFile {sfx n : String} {sz : Nat} {rd : Bool}
    (hne : n ≠ "") :
    hasGameEntryWithSuffix (zipOfTree [FsEntry.file n sz rd]) n sfx = false := by
  have hsplit : zipOfTree [FsEntry.file n sz rd] = [⟨n, false⟩] := by
    simp [zipOfTree, zipEntriesOfList, zipEntriesOfEntry]
  rw [hsplit]
  unfold hasGameEntryWithSuffix
  simp only [if_neg hne]
  have hfalse : jsStartsWith n (n ++ "/") = false := by
    cases hb : jsStartsWith n (n ++ "/") with
    | false => rfl
    | true =>
      exfalso
      have h := (jsStartsWith_iff _ _).mp hb
      have hlen := h.length_le
      simp [String.data_append] at hlen
  simp only [List.any_cons, List.any_nil, hfalse, Bool.not_false, if_true,
    Bool.or_false]

/-! ## Classification parity (claim C4) -/

theorem getUnpackStructureFromDir_multi (e₁ e₂ : FsEntry)
    (rest : List FsEntry) :
    getUnpackStructureFromDir (e₁ :: e₂ :: rest) = ⟨false, none⟩ := by
  unfold getUnpackStructureFromDir
  rw [if_neg]
  rintro ⟨-, hlen⟩
  simp at hlen

theorem zipWouldProject_nonsingleton {Z : List ZipEntry}
    (htl : ∀ r, zipTopLevel Z ≠ [r]) :
    zipWouldYieldRenpyProject Z ⟨false, none⟩ =
      hasGameEntryWithSuffix Z "" ".rpy" := by
  simp only [zipWouldYieldRenpyProject]
  cases hb : hasGameEntryWithSuffix Z "" ".rpy" with
  | true => simp
  | false => simp only [Bool.false_eq_true, if_false]

theorem zipWouldDistribution_nonsingleton {Z : List ZipEntry}
    (htl : ∀ r, zipTopLevel Z ≠ [r]) :
    zipWouldYieldRenpyDistribution Z ⟨false, none⟩ =
      (hasGameEntryWithSuffix Z "" ".rpyc"
        && !hasGameEntryWithSuffix Z "" ".rpy") := by
  simp only [zipWouldYieldRenpyDistribution]
  cases hb : (hasGameEntryWithSuffix Z "" ".rpyc"
      && !hasGameEntryWithSuffix Z "" ".rpy") with
  | true => simp
  | false => simp only [Bool.false_eq_true, if_false]

/-- C4: for every well-formed fixture expressed both as a directory tree and
as its equivalent zip archive, the Project Classifier yields the same
classification through the zip route (string-pfx matching over entry names,
after the zip's unpack plan) and the directory route (recursive walk, after
the directory's unpack plan). -/
theorem classifier_parity (es : List FsEntry) (h : wfList es = true) :
    classifyDir es = classifyZip (zipOfTree es) := by
  have hrpy1 : (".rpy" : String) ≠ "" := by decide
  have hrpy2 : '/' ∉ (".rpy" : String).data := by decide
  have hrpyc1 : (".rpyc" : String) ≠ "" := by decide
  have hrpyc2 : '/' ∉ (".rpyc" : String).data := by decide
  match es, h with
  | [], _ => decide
  | [FsEntry.file n sz rd], h =>
    have hwf : FsEntry.wf (.file n sz rd) = true :=
      ((wfList_iff _).mp h).1 _ (by simp)
    have hne : n ≠ "" := by
      simpa [FsEntry.name] using wf_name_ne hwf
    have hcd : childDir [FsEntry.file n sz rd] "game" = none := by
      rw [childDir_cons_file]
      by_cases hn : n = "game" <;> simp [hn, childDir]
    have hplanz : getUnpackStructure (zipOfTree [FsEntry.file n sz rd]) =
        ⟨true, some n⟩ := by
      have := getUnpackStructure_zipOfTree_single hwf
      simpa [FsEntry.name] using this
    have hplan : getUnpackStructureFromDir [FsEntry.file n sz rd] =
        ⟨false, none⟩ := by
      simp [getUnpackStructureFromDir, FsEntry.isDir]
    simp only [classifyDir, classifyZip, hplan, hplanz]
    have hp : dirWouldYieldRenpyProject [FsEntry.file n sz rd]
        ⟨false, none⟩ = false := by
      simp [dirWouldYieldRenpyProject, dirHasRenpyGame, hcd]
    have hd : dirWouldYieldRenpyDistribution [FsEntry.file n sz rd]
        ⟨false, none⟩ = false := by
      simp [dirWouldYieldRenpyDistribution, dirHasRenpyDistribution, hcd]
    have hzp : zipWouldYieldRenpyProject (zipOfTree [FsEntry.file n sz rd])
        ⟨true, some n⟩ = false := by
      simp only [zipWouldYieldRenpyProject]
      exact hasGame_singleFile hne
    have hzd : zipWouldYieldRenpyDistribution
        (zipOfTree [FsEntry.file n sz rd]) ⟨true, some n⟩ = false := by
      simp only [zipWouldYieldRenpyDistribution]
      rw [hasGame_singleFile hne, Bool.false_and]
    rw [hp, hd, hzp, hzd]
  | [FsEntry.dir n cs], h =>
    have hwf : FsEntry.wf (.dir n cs) = true :=
      ((wfList_iff _).mp h).1 _ (by simp)
    have hne : n ≠ "" := by
      simpa [FsEntry.name] using wf_name_ne hwf
    have hwfcs : wfList cs = true := wf_dir_children hwf
    have hcd : childDir [FsEntry.dir n cs] n = some cs := by
      rw [childDir_cons_dir]
      simp
    have hplan : getUnpackStructureFromDir [FsEntry.dir n cs] =
        ⟨true, some n⟩ := by
      simp [getUnpackStructureFromDir, FsEntry.isDir, FsEntry.name]
    have hplanz : getUnpackStructure (zipOfTree [FsEntry.dir n cs]) =
        ⟨true, some n⟩ := by
      have := getUnpackStructure_zipOfTree_single hwf
      simpa [FsEntry.name] using this
    simp only [classifyDir, classifyZip, hplan, hplanz]
    have hp : dirWouldYieldRenpyProject [FsEntry.dir n cs] ⟨true, some n⟩ =
        dirHasRenpyGame cs := by
      simp [dirWouldYieldRenpyProject, hcd]
    have hd : dirWouldYieldRenpyDistribution [FsEntry.dir n cs]
        ⟨true, some n⟩ = dirHasRenpyDistribution cs := by
      simp [dirWouldYieldRenpyDistribution, hcd]
    have hzp : zipWouldYieldRenpyProject (zipOfTree [FsEntry.dir n cs])
        ⟨true, some n⟩ = dirHasRenpyGame cs := by
      simp only [zipWouldYieldRenpyProject]
      rw [hasGame_zipOfTree_under hne, hasGame_zipOfTree hrpy1 hrpy2 cs hwfcs,
        dirHasRenpyGame_eq_dirGameExt]
    have hzd : zipWouldYieldRenpyDistribution (zipOfTree [FsEntry.dir n cs])
        ⟨true, some n⟩ = dirHasRenpyDistribution cs := by
      simp only [zipWouldYieldRenpyDistribution]
      rw [hasGame_zipOfTree_under hne, hasGame_zipOfTree_under hne,
        hasGame_zipOfTree hrpy1 hrpy2 cs hwfcs,
        hasGame_zipOfTree hrpyc1 hrpyc2 cs hwfcs,
        dirHasRenpyDistribution_eq_dirGameExt]
    rw [hp, hd, hzp, hzd]
  | e₁ :: e₂ :: rest, h =>
    have hplan : getUnpackStructureFromDir (e₁ :: e₂ :: rest) =
        ⟨false, none⟩ := getUnpackStructureFromDir_multi e₁ e₂ rest
    have hplanz : getUnpackStructure (zipOfTree (e₁ :: e₂ :: rest)) =
        ⟨false, none⟩ := getUnpackStructure_zipOfTree_multi h
    have htl : ∀ r, zipTopLevel (zipOfTree (e₁ :: e₂ :: rest)) ≠ [r] := by
      intro r hc
      have hcontra : getUnpackStructure (zipOfTree (e₁ :: e₂ :: rest)) =
          ⟨true, some r⟩ := by
        unfold getUnpackStructure
        rw [hc]
      rw [hplanz] at hcontra
      exact absurd (congrArg UnpackPlan.flatten hcontra) (by simp)
    simp only [classifyDir, classifyZip, hplan, hplanz]
    have hp : dirWouldYieldRenpyProject (e₁ :: e₂ :: rest) ⟨false, none⟩ =
        dirHasRenpyGame (e₁ :: e₂ :: rest) := rfl
    have hd : dirWouldYieldRenpyDistribution (e₁ :: e₂ :: rest)
        ⟨false, none⟩ = dirHasRenpyDistribution (e₁ :: e₂ :: rest) := rfl
    have hzp : zipWouldYieldRenpyProject (zipOfTree (e₁ :: e₂ :: rest))
        ⟨false, none⟩ = dirHasRenpyGame (e₁ :: e₂ :: rest) := by
      rw [zipWouldProject_nonsingleton htl,
        hasGame_zipOfTree hrpy1 hrpy2 _ h, dirHasRenpyGame_eq_dirGameExt]
    have hzd : zipWouldYieldRenpyDistribution (zipOfTree (e₁ :: e₂ :: rest))
        ⟨false, none⟩ = dirHasRenpyDistribution (e₁ :: e₂ :: rest) := by
      rw [zipWouldDistribution_nonsingleton htl,
        hasGame_zipOfTree hrpy1 hrpy2 _ h,
        hasGame_zipOfTree hrpyc1 hrpyc2 _ h,
        dirHasRenpyDistribution_eq_dirGameExt]
    rw [hp, hd, hzp, hzd]

/-- Witness for `classifier_parity` at a concrete buildable fixture. -/
theorem classifier_parity_witness :
    wfList [FsEntry.dir "MyVN" [FsEntry.dir "game"
      [FsEntry.file "script.rpy" 10 true]]] = true ∧
    classifyDir [FsEntry.dir "MyVN" [FsEntry.dir "game"
      [FsEntry.file "script.rpy" 10 true]]] =
      classifyZip (zipOfTree [FsEntry.dir "MyVN" [FsEntry.dir "game"
        [FsEntry.file "script.rpy" 10 true]]]) :=
  ⟨by decide, classifier_parity _ (by decide)⟩

/-! ## The walk collects exactly the readable image files (claim C9) -/

/-- Pointwise-equal partial maps give equal `filterMap`s. -/
theorem filterMap_congr_mem {α β : Type} {l : List α} {f g : α → Option β}
    (h : ∀ a ∈ l, f a = g a) : l.filterMap f = l.filterMap g := by
  induction l with
  | nil => rfl
  | cons x t ih =>
    rw [List.filterMap_cons, List.filterMap_cons,
      h x (List.mem_cons_self x t),
      ih (fun a ha => h a (List.mem_cons_of_mem x ha))]

theorem filesOfList_path_aux (es : List FsEntry) (pfx : List String)
    (ih : ∀ e ∈ es, ∀ (pfx' : List String) q, q ∈ filesOfEntry pfx' e →
      ∃ t, q.dirPath = pfx' ++ t) :
    ∀ q ∈ filesOfList pfx es, ∃ t, q.dirPath = pfx ++ t := by
  induction es with
  | nil => intro q hq; simp [filesOfList] at hq
  | cons e rest iht =>
    intro q hq
    rw [filesOfList, List.mem_append] at hq
    rcases hq with hq | hq
    · exact ih e (List.mem_cons_self e rest) pfx q hq
    · exact iht (fun e' he' => ih e' (List.mem_cons_of_mem e he')) q hq

/-- Every file reached below `pfx` carries `pfx` as a path pfx. -/
theorem filesOfEntry_path (e : FsEntry) :
    ∀ (pfx : List String) q, q ∈ filesOfEntry pfx e →
      ∃ t, q.dirPath = pfx ++ t := by
  induction e using FsEntry.inductionOn with
  | hf n sz rd =>
    intro pfx q hq
    simp [filesOfEntry] at hq
    exact ⟨[], by simp [hq]⟩
  | hd n cs ih =>
    intro pfx q hq
    rw [filesOfEntry] at hq
    obtain ⟨t, ht⟩ := filesOfList_path_aux cs (pfx ++ [n]) ih q hq
    exact ⟨[n] ++ t, by simp [ht]⟩

theorem walk_eq_filter_aux (pfx : List String) (isRoot : Bool)
    (es : List FsEntry)
    (ih : ∀ e ∈ es, ∀ (pfx' : List String) (isRoot' : Bool),
      walkThumbEntry pfx' isRoot' e =
        (filesOfEntry pfx' e).filterMap (specThumbOf pfx' isRoot')) :
    walkThumb pfx isRoot es =
      (filesOfList pfx es).filterMap (specThumbOf pfx isRoot) := by
  induction es with
  | nil => rfl
  | cons e rest iht =>
    rw [walkThumb, filesOfList, List.filterMap_append,
      ih e (List.mem_cons_self e rest),
      iht (fun e' he' => ih e' (List.mem_cons_of_mem e he'))]

/-- The walk of one entry produces exactly the spec's candidates for the
files below it. -/
theorem walkThumbEntry_eq_filter (e : FsEntry) :
    ∀ (pfx : List String) (isRoot : Bool),
      walkThumbEntry pfx isRoot e =
        (filesOfEntry pfx e).filterMap (specThumbOf pfx isRoot) := by
  induction e using FsEntry.inductionOn with
  | hf n sz rd =>
    intro pfx isRoot
    rw [walkThumbEntry, filesOfEntry]
    simp only [List.filterMap_cons, List.filterMap_nil, specThumbOf]
    cases rd with
    | false =>
      by_cases hc : jsToLower (extname n) ∈ IMAGE_EXTENSIONS <;> simp [hc]
    | true =>
      by_cases hc : jsToLower (extname n) ∈ IMAGE_EXTENSIONS <;> simp [hc]
  | hd n cs ih =>
    intro pfx isRoot
    rw [walkThumbEntry, filesOfEntry, walk_eq_filter_aux _ _ _ ih]
    refine filterMap_congr_mem ?_
    intro q hq
    obtain ⟨t, ht⟩ := filesOfList_path_aux cs (pfx ++ [n])
      (fun e' _ => filesOfEntry_path e') q hq
    have hne : q.dirPath ≠ pfx := by
      rw [ht]
      intro hc
      have := congrArg List.length hc
      simp at this
    simp [specThumbOf, hne]

/-- The full walk equals the spec's collection over all files. -/
theorem walkThumb_eq_filesOf (gameDir : List FsEntry) :
    walkThumb [] true gameDir =
      (filesOf gameDir).filterMap (specThumbOf [] true) :=
  walk_eq_filter_aux [] true gameDir
    (fun e _ => walkThumbEntry_eq_filter e)

/-! ## The earliest-maximum property of `pickBest` (claim C9) -/

theorem betterThumb_iff (d b : ThumbCand) :
    betterThumb d b = true ↔
      (b.score < d.score ∨ (d.score = b.score ∧ b.size < d.size)) := by
  simp [betterThumb]

theorem betterThumb_false_iff (d b : ThumbCand) :
    betterThumb d b = false ↔
      ¬ (b.score < d.score ∨ (d.score = b.score ∧ b.size < d.size)) := by
  rw [Bool.eq_false_iff, ne_eq, betterThumb_iff]

theorem betterThumb_trans {r d b : ThumbCand}
    (h1 : betterThumb r d = true) (h2 : betterThumb d b = true) :
    betterThumb r b = true := by
  rw [betterThumb_iff] at h1 h2 ⊢
  omega

theorem betterThumb_trans_chain {r d b : ThumbCand}
    (h1 : betterThumb r b = true) (h2 : betterThumb d b = false) :
    betterThumb r d = true := by
  rw [betterThumb_iff] at h1 ⊢
  rw [betterThumb_false_iff] at h2
  omega

theorem betterThumb_asymm {d c : ThumbCand}
    (h : betterThumb c d = true) : betterThumb d c = false := by
  rw [betterThumb_iff] at h
  rw [betterThumb_false_iff]
  omega

/-- The fold of `pickBest` either keeps its seed (nothing strictly better
follows) or lands on a list element that strictly beats the seed and every
earlier element, with nothing strictly better after it. -/
theorem foldBest_spec (cs : List ThumbCand) : ∀ b : ThumbCand,
    (cs.foldl stepBest b = b ∧ ∀ d ∈ cs, betterThumb d b = false) ∨
    (∃ l₁ l₂, cs = l₁ ++ (cs.foldl stepBest b) :: l₂ ∧
      betterThumb (cs.foldl stepBest b) b = true ∧
      (∀ d ∈ l₁, betterThumb (cs.foldl stepBest b) d = true) ∧
      (∀ d ∈ l₂, betterThumb d (cs.foldl stepBest b) = false)) := by
  induction cs with
  | nil => intro b; exact Or.inl ⟨rfl, by simp⟩
  | cons d cs' ih =>
    intro b
    rw [List.foldl_cons]
    cases hd : betterThumb d b with
    | true =>
      have hstep : stepBest b d = d := by simp [stepBest, hd]
      rw [hstep]
      rcases ih d with ⟨hr, hall⟩ | ⟨l₁, l₂, hsplit, hrb, h1, h2⟩
      · refine Or.inr ⟨[], cs', ?_, ?_, ?_, ?_⟩
        · rw [hr]; rfl
        · rw [hr]; exact hd
        · intro e he; simp at he
        · intro e he; rw [hr]; exact hall e he
      · refine Or.inr ⟨d :: l₁, l₂, ?_, ?_, ?_, h2⟩
        · rw [List.cons_append, ← hsplit]
        · exact betterThumb_trans hrb hd
        · intro e he
          rcases List.mem_cons.mp he with rfl | he
          · exact hrb
          · exact h1 e he
    | false =>
      have hstep : stepBest b d = b := by simp [stepBest, hd]
      rw [hstep]
      rcases ih b with ⟨hr, hall⟩ | ⟨l₁, l₂, hsplit, hrb, h1, h2⟩
      · refine Or.inl ⟨hr, ?_⟩
        intro e he
        rcases List.mem_cons.mp he with rfl | he
        · exact hd
        · exact hall e he
      · refine Or.inr ⟨d :: l₁, l₂, ?_, hrb, ?_, h2⟩
        · rw [List.cons_append, ← hsplit]
        · intro e he
          rcases List.mem_cons.mp he with rfl | he
          · exact betterThumb_trans_chain hrb hd
          · exact h1 e he

/-- `pickBest` returns the earliest lexicographic maximum. -/
theorem pickBest_isFirstMax {l : List ThumbCand} {c : ThumbCand}
    (h : pickBest l = some c) : IsFirstMax l c := by
  cases l with
  | nil => simp [pickBest] at h
  | cons c₀ cs =>
    have hc : cs.foldl stepBest c₀ = c := by
      simpa [pickBest] using h
    rcases foldBest_spec cs c₀ with ⟨hr, hall⟩ | ⟨l₁, l₂, hsplit, hrb, h1, h2⟩
    · refine ⟨[], cs, ?_, by simp, ?_⟩
      · rw [← hc, hr]; rfl
      · intro d hd
        rw [← hc, hr]
        exact hall d hd
    · rw [hc] at hsplit hrb h1 h2
      refine ⟨c₀ :: l₁, l₂, ?_, ?_, h2⟩
      · rw [List.cons_append, ← hsplit]
      · intro d hd
        rcases List.mem_cons.mp hd with rfl | hd
        · exact hrb
        · exact h1 d hd

/-- Nothing in the list strictly beats the earliest maximum. -/
theorem isFirstMax_max {l : List ThumbCand} {c : ThumbCand}
    (h : IsFirstMax l c) : ∀ d ∈ l, betterThumb d c = false := by
  obtain ⟨l₁, l₂, rfl, h1, h2⟩ := h
  intro d hd
  rw [List.mem_append, List.mem_cons] at hd
  rcases hd with hd | rfl | hd
  · exact betterThumb_asymm (h1 d hd)
  · rw [betterThumb_false_iff]; omega
  · exact h2 d hd

theorem pickBest_none_iff (l : List ThumbCand) :
    pickBest l = none ↔ l = [] := by
  cases l <;> simp [pickBest]

/-! ## The hint loop as a rank lookup (claim C9) -/

theorem hintBonusAux_eq (base : String) (hints : List String) : ∀ i : Nat,
    hintBonusAux base hints i =
      (match hints.findIdx? (fun h => jsIncludes base h) i with
       | some j => 50 - j
       | none => 0) := by
  induction hints with
  | nil => intro i; rfl
  | cons h t ih =>
    intro i
    rw [hintBonusAux, List.findIdx?_cons]
    cases hb : jsIncludes base h with
    | true => simp
    | false =>
      simp only [Bool.false_eq_true, if_false]
      exact ih (i + 1)

/-- C9: over every destination tree the Thumbnail Selector collects exactly
the readable files with an image-set extension, scored with the root bonus,
the rank-decreasing weight of the first matching hint, and the size bonus;
it returns the highest-scoring candidate with ties broken by size and then
traversal order, and returns null exactly when no candidate (in particular,
zero images) exists, unreadable files being excluded rather than failing. -/
theorem thumbnail_selector_spec (gameDir : List FsEntry) :
    (walkThumb [] true gameDir =
      (filesOf gameDir).filterMap (specThumbOf [] true)) ∧
    (findThumbnailCandidate gameDir = none ↔
      (filesOf gameDir).filterMap (specThumbOf [] true) = []) ∧
    (∀ base : String, hintBonus base =
      (match THUMBNAIL_NAME_HINTS.findIdx? (fun h => jsIncludes base h) with
       | some j => 50 - j
       | none => 0)) ∧
    (∀ c : ThumbCand, pickBest (walkThumb [] true gameDir) = some c →
      findThumbnailCandidate gameDir = some (c.path, c.ext) ∧
      IsFirstMax (walkThumb [] true gameDir) c ∧
      ∀ d ∈ walkThumb [] true gameDir, betterThumb d c = false) := by
  refine ⟨walkThumb_eq_filesOf gameDir, ?_, ?_, ?_⟩
  · rw [← walkThumb_eq_filesOf gameDir]
    unfold findThumbnailCandidate
    cases hp : pickBest (walkThumb [] true gameDir) with
    | none =>
      simp only []
      rw [← pickBest_none_iff, hp]
      simp
    | some c =>
      simp only []
      rw [← pickBest_none_iff, hp]
      simp
  · intro base
    exact hintBonusAux_eq base THUMBNAIL_NAME_HINTS 0
  · intro c hc
    refine ⟨?_, pickBest_isFirstMax hc, isFirstMax_max (pickBest_isFirstMax hc)⟩
    unfold findThumbnailCandidate
    rw [hc]

/-- Witness for `thumbnail_selector_spec` at a concrete destination. -/
theorem thumbnail_selector_spec_witness :
    (walkThumb [] true [FsEntry.file "index.html" 500 true,
        FsEntry.file "main.js" 300 true, FsEntry.file "logo.png" 2000 true] =
      (filesOf [FsEntry.file "index.html" 500 true,
        FsEntry.file "main.js" 300 true, FsEntry.file "logo.png" 2000 true]).filterMap
        (specThumbOf [] true)) ∧
    (findThumbnailCandidate [FsEntry.file "index.html" 500 true,
        FsEntry.file "main.js" 300 true, FsEntry.file "logo.png" 2000 true] = none ↔
      (filesOf [FsEntry.file "index.html" 500 true,
        FsEntry.file "main.js" 300 true, FsEntry.file "logo.png" 2000 true]).filterMap
        (specThumbOf [] true) = []) ∧
    (∀ base : String, hintBonus base =
      (match THUMBNAIL_NAME_HINTS.findIdx? (fun h => jsIncludes base h) with
       | some j => 50 - j
       | none => 0)) ∧
    (∀ c : ThumbCand, pickBest (walkThumb [] true
        [FsEntry.file "index.html" 500 true, FsEntry.file "main.js" 300 true,
          FsEntry.file "logo.png" 2000 true]) = some c →
      findThumbnailCandidate [FsEntry.file "index.html" 500 true,
          FsEntry.file "main.js" 300 true, FsEntry.file "logo.png" 2000 true] =
        some (c.path, c.ext) ∧
      IsFirstMax (walkThumb [] true [FsEntry.file "index.html" 500 true,
        FsEntry.file "main.js" 300 true, FsEntry.file "logo.png" 2000 true]) c ∧
      ∀ d ∈ walkThumb [] true [FsEntry.file "index.html" 500 true,
        FsEntry.file "main.js" 300 true, FsEntry.file "logo.png" 2000 true],
          betterThumb d c = false) :=
  thumbnail_selector_spec [FsEntry.file "index.html" 500 true,
    FsEntry.file "main.js" 300 true, FsEntry.file "logo.png" 2000 true]

/-! ## Sortedness lemmas -/

theorem mem_insertSorted (x a : String) (l : List String) :
    a ∈ insertSorted x l ↔ a = x ∨ a ∈ l := by
  induction l with
  | nil => simp [insertSorted]
  | cons y t ih =>
    rw [insertSorted]
    by_cases h : x ≤ y
    · simp [h]
    · simp only [if_neg h, List.mem_cons, ih]
      tauto

theorem sorted_insertSorted (x : String) (l : List String)
    (h : l.Pairwise (· ≤ ·)) : (insertSorted x l).Pairwise (· ≤ ·) := by
  induction l with
  | nil => simp [insertSorted]
  | cons y t ih =>
    rw [insertSorted]
    rcases List.pairwise_cons.mp h with ⟨hy, ht⟩
    by_cases hxy : x ≤ y
    · rw [if_pos hxy]
      refine List.pairwise_cons.mpr ⟨?_, h⟩
      intro b hb
      rcases List.mem_cons.mp hb with rfl | hb
      · exact hxy
      · exact le_trans hxy (hy b hb)
    · rw [if_neg hxy]
      refine List.pairwise_cons.mpr ⟨?_, ih ht⟩
      intro b hb
      rcases (mem_insertSorted x b t).mp hb with rfl | hb
      · exact le_of_not_le hxy
      · exact hy b hb

theorem sorted_sortStrings (l : List String) :
    (sortStrings l).Pairwise (· ≤ ·) := by
  induction l with
  | nil => simp [sortStrings]
  | cons x t ih => exact sorted_insertSorted x (sortStrings t) ih

theorem mem_sortStrings (l : List String) (a : String) :
    a ∈ sortStrings l ↔ a ∈ l := by
  induction l with
  | nil => simp [sortStrings]
  | cons x t ih =>
    rw [sortStrings, mem_insertSorted, ih, List.mem_cons]

theorem head_le_of_sorted {l : List String} {x : String}
    (hs : l.Pairwise (· ≤ ·)) (hh : l.head? = some x) :
    ∀ y ∈ l, x ≤ y := by
  cases l with
  | nil => simp at hh
  | cons a t =>
    have hx : a = x := by simpa using hh
    subst hx
    intro y hy
    rcases List.mem_cons.mp hy with rfl | hy
    · exact le_refl y
    · exact (List.pairwise_cons.mp hs).1 y hy

/-- C10: the Entry-Point Resolver lists exactly the root files whose name
ends (case-insensitively) in `.html`, in lexicographic order; a sole
candidate is selected regardless of operator input; with several candidates
an invalid selection (neither an in-range parsed index nor a listed
filename) falls back to the first candidate, which is the lexicographic
minimum. -/
theorem entrypoint_resolver_spec :
    (∀ gameDir : List FsEntry,
      (getRootHtmlFiles gameDir).Pairwise (· ≤ ·) ∧
      ∀ x, x ∈ getRootHtmlFiles gameDir ↔
        ∃ e ∈ gameDir, FsEntry.isFile e = true ∧
          jsEndsWith (jsToLower (FsEntry.name e)) ".html" = true ∧
          FsEntry.name e = x) ∧
    (∀ f raw : String, selectEntryPoint [f] raw = some f) ∧
    (∀ (files : List String) (raw : String), 2 ≤ files.length →
      ¬ ValidSelection files raw →
      selectEntryPoint files raw = files.head?) ∧
    (∀ (gameDir : List FsEntry) (x : String),
      (getRootHtmlFiles gameDir).head? = some x →
      ∀ y ∈ getRootHtmlFiles gameDir, x ≤ y) := by
  refine ⟨?_, ?_, ?_, ?_⟩
  · intro gameDir
    refine ⟨sorted_sortStrings _, ?_⟩
    intro x
    rw [getRootHtmlFiles, mem_sortStrings, List.mem_map]
    constructor
    · rintro ⟨e, he, rfl⟩
      rw [List.mem_filter] at he
      rcases he with ⟨hmem, hp⟩
      rw [Bool.and_eq_true] at hp
      exact ⟨e, hmem, hp.1, hp.2, rfl⟩
    · rintro ⟨e, hmem, h1, h2, rfl⟩
      refine ⟨e, ?_, rfl⟩
      rw [List.mem_filter, Bool.and_eq_true]
      exact ⟨hmem, h1, h2⟩
  · intro f raw
    rfl
  · intro files raw hlen hinv
    cases files with
    | nil => simp at hlen
    | cons a rest =>
      cases rest with
      | nil => simp at hlen
      | cons b t =>
        cases hp : jsParseInt raw with
        | some n =>
          have hrange : ¬ (1 ≤ n ∧ n ≤ ((a :: b :: t).length : Int)) :=
            fun hr => hinv (Or.inl ⟨n, hp, hr.1, hr.2⟩)
          have hmem : raw ∉ (a :: b :: t) := fun hm => hinv (Or.inr hm)
          simp only [selectEntryPoint, hp, if_neg hrange, if_neg hmem]
        | none =>
          have hmem : raw ∉ (a :: b :: t) := fun hm => hinv (Or.inr hm)
          simp only [selectEntryPoint, hp, if_neg hmem]
  · intro gameDir x hx
    exact head_le_of_sorted (sorted_sortStrings _) hx

/-- Witness for `entrypoint_resolver_spec` at concrete inputs: two
candidates and an invalid selection fall back to the first. -/
theorem entrypoint_resolver_spec_witness :
    2 ≤ (["a.html", "b.html"] : List String).length ∧
    ¬ ValidSelection ["a.html", "b.html"] "zzz" ∧
    selectEntryPoint ["a.html", "b.html"] "zzz" =
      (["a.html", "b.html"] : List String).head? := by
  have hv : ¬ ValidSelection ["a.html", "b.html"] "zzz" := by
    rintro (⟨n, hn, -⟩ | hm)
    · rw [show jsParseInt "zzz" = none from by decide] at hn
      exact Option.noConfusion hn
    · simp at hm
  exact ⟨by decide, hv,
    entrypoint_resolver_spec.2.2.1 ["a.html", "b.html"] "zzz" (by decide) hv⟩

/-! ## List helper lemmas for the catalog -/

theorem findIdx?_some_spec {α : Type} (p : α → Bool) :
    ∀ (l : List α) (i0 i : Nat), l.findIdx? p i0 = some i →
      i0 ≤ i ∧ ∃ x, l.get? (i - i0) = some x ∧ p x = true := by
  intro l
  induction l with
  | nil => intro i0 i h; simp [List.findIdx?] at h
  | cons x t ih =>
    intro i0 i h
    rw [List.findIdx?_cons] at h
    by_cases hp : p x = true
    · rw [if_pos hp] at h
      injection h with h
      subst h
      exact ⟨le_refl _, x, by simp, hp⟩
    · rw [if_neg hp] at h
      obtain ⟨hle, y, hy, hpy⟩ := ih (i0 + 1) i h
      refine ⟨by omega, y, ?_, hpy⟩
      have hstep : i - i0 = (i - (i0 + 1)) + 1 := by omega
      rw [hstep]
      simpa using hy

theorem set_get_self {α : Type} :
    ∀ (l : List α) (i : Nat) (a : α), l.get? i = some a → l.set i a = l := by
  intro l
  induction l with
  | nil => intro i a h; simp at h
  | cons x t ih =>
    intro i a h
    cases i with
    | zero =>
      simp at h
      simp [List.set, h]
    | succ j =>
      have h' : t.get? j = some a := h
      show x :: t.set j a = x :: t
      rw [ih j a h']

theorem nodup_append_singleton {α : Type} {l : List α} {a : α}
    (h : l.Nodup) (ha : a ∉ l) : (l ++ [a]).Nodup := by
  rw [List.nodup_append]
  exact ⟨h, List.nodup_singleton a, by
    intro x hx hxa
    rw [List.mem_singleton] at hxa
    exact ha (hxa ▸ hx)⟩

/-- In a catalog with pairwise-distinct ids, the entries carrying a given id
held by some member form a one-element sublist. -/
theorem filter_length_one_of_nodup {α : Type} (f : α → String) (b : String) :
    ∀ (l : List α), (l.map f).Nodup → ∀ g ∈ l, f g = b →
      (l.filter (fun x => f x = b)).length = 1 := by
  intro l
  induction l with
  | nil => intro _ g hg; simp at hg
  | cons x t ih =>
    intro hnd g hg hgb
    rw [List.map_cons, List.nodup_cons] at hnd
    rw [List.filter_cons]
    by_cases hx : f x = b
    · rw [if_pos (by simpa using hx)]
      have hrest : t.filter (fun y => f y = b) = [] := by
        rw [List.filter_eq_nil_iff]
        intro y hy
        simp only [decide_eq_true_eq]
        intro hyb
        exact hnd.1 (List.mem_map.mpr ⟨y, hy, by rw [hyb, ← hx]⟩)
      rw [hrest]
      rfl
    · rw [if_neg (by simpa using hx)]
      have hgt : g ∈ t := by
        rcases List.mem_cons.mp hg with rfl | hgt
        · exact absurd hgb hx
        · exact hgt
      exact ih hnd.2 g hgt hgb

/-! ## Dry-run behaviour (claim C5) -/

/-- C5: a dry run against a valid source (it exists and, when a zip, opens)
leaves the destination, thumbnail store and catalog document untouched and
exits successfully. -/
theorem dry_run_no_mutation (env : Env) (w : World)
    (hsrc : env.sourceExists = true)
    (hopen : env.sourceIsDir = true ∨ env.zipOpens = true)
    (hdry : env.args.dryRun = true) :
    runMain env w = (w, .success) := by
  unfold runMain
  rcases hopen with h | h <;> simp [hsrc, h, hdry]

/-- Witness for `dry_run_no_mutation`. -/
theorem dry_run_no_mutation_witness :
    envDry.sourceExists = true ∧ envDry.args.dryRun = true ∧
    runMain envDry wBase = (wBase, .success) :=
  ⟨rfl, rfl, dry_run_no_mutation envDry wBase rfl (Or.inr rfl) rfl⟩

/-! ## Build-failure rollback (claim C1) -/

/-- C1: when a buildable project is detected and the Build Orchestrator
fails — SDK missing, web support missing, launcher missing, subprocess
failure or timeout, or build output not found by convention — the run exits
with an error, the destination directory does not exist afterwards (even
though it was just cleared and recreated during materialization), and the
catalog document is unchanged, so a previously-unseen id has no entry. -/
theorem build_failure_rollback (env : Env) (w : World)
    (hsrc : env.sourceExists = true)
    (hopen : env.sourceIsDir = true ∨ env.zipOpens = true)
    (hdry : env.args.dryRun = false)
    (hcopy : env.copyOk = true)
    (hproj : (findRenpyProjectRoot env.materializedTree).isSome = true)
    (hfail : env.sdkPresent = false ∨ env.webSupport = false ∨
      env.launcherFound = false ∨ env.buildSucceeds = false ∨
      env.distBaseFound = false ∨ env.webEntryFound = false) :
    (∃ e : ErrKind, (runMain env w).2 = .failure e) ∧
    (runMain env w).1.destExists = false ∧
    (runMain env w).1.catalog = w.catalog ∧
    (env.args.gameId ∉ w.catalog.map Game.id →
      env.args.gameId ∉ (runMain env w).1.catalog.map Game.id) := by
  have hop : (env.sourceIsDir || env.zipOpens) = true := by
    rcases hopen with h | h <;> simp [h]
  have key : ∃ e : ErrKind, runMain env w =
      ({ w with destExists := false, icons := .absent }, .failure e) := by
    by_cases h1 : env.sdkPresent = true
    · by_cases h2 : env.webSupport = true
      · by_cases h3 : env.launcherFound = true
        · by_cases h4 : env.buildSucceeds = true
          · by_cases h5 : env.distBaseFound = true
            · by_cases h6 : env.webEntryFound = true
              · exfalso
                rcases hfail with h | h | h | h | h | h <;> simp_all
              · exact ⟨.webOutputMissing, by
                  simp [runMain, hsrc, hop, hdry, hcopy, hproj, h1, h2, h3,
                    h4, h5, h6, buildTryStep]⟩
            · exact ⟨.distOutputMissing, by
                simp [runMain, hsrc, hop, hdry, hcopy, hproj, h1, h2, h3,
                  h4, h5, buildTryStep]⟩
          · exact ⟨.buildFailed, by
              simp [runMain, hsrc, hop, hdry, hcopy, hproj, h1, h2, h3, h4,
                buildTryStep]⟩
        · exact ⟨.launcherMissing, by
            simp [runMain, hsrc, hop, hdry, hcopy, hproj, h1, h2, h3]⟩
      · exact ⟨.webMissing, by
          simp [runMain, hsrc, hop, hdry, hcopy, hproj, h1, h2]⟩
    · exact ⟨.sdkMissing, by
        simp [runMain, hsrc, hop, hdry, hcopy, hproj, h1]⟩
  obtain ⟨e, he⟩ := key
  rw [he]
  exact ⟨⟨e, rfl⟩, rfl, rfl, fun h => h⟩

/-- Witness for `build_failure_rollback`. -/
theorem build_failure_rollback_witness :
    (findRenpyProjectRoot envBuildFail.materializedTree).isSome = true ∧
    ((∃ e : ErrKind, (runMain envBuildFail wBase).2 = .failure e) ∧
     (runMain envBuildFail wBase).1.destExists = false ∧
     (runMain envBuildFail wBase).1.catalog = wBase.catalog ∧
     (envBuildFail.args.gameId ∉ wBase.catalog.map Game.id →
       envBuildFail.args.gameId ∉
         (runMain envBuildFail wBase).1.catalog.map Game.id)) :=
  ⟨rfl, build_failure_rollback envBuildFail wBase rfl (Or.inr rfl) rfl rfl
    rfl (Or.inl rfl)⟩

/-- C3 counterexample: with no playable content and no distribution marker,
`main` exits with the no-HTML error but deliberately leaves the
already-materialized destination directory in place ("Game directory left
in place for inspection" in the source); it is not rolled back. -/
theorem noHtmlLeavesDestination :
    (runMain envNoHtml wBase).2 = .failure .noHtmlFound ∧
    (runMain envNoHtml wBase).1.destExists = true :=
  ⟨rfl, rfl⟩

/-- C3 (amended): when the materialized destination root has no HTML file,
the run fails with one of two distinct errors: if the tree matches the
compiled-distribution shape the error is `distributionNotSource` and the
destination is rolled back (deleted); otherwise the error is `noHtmlFound`
and the destination is left in place for inspection, not rolled back.
(Stated on the static path, where no buildable project was detected.) -/
theorem structure_error_disposition (env : Env) (w : World)
    (hsrc : env.sourceExists = true)
    (hopen : env.sourceIsDir = true ∨ env.zipOpens = true)
    (hdry : env.args.dryRun = false)
    (hcopy : env.copyOk = true)
    (hproj : findRenpyProjectRoot env.materializedTree = none)
    (hhtml : getRootHtmlFiles env.materializedTree = []) :
    ((findRenpyDistributionRoot env.materializedTree).isSome = true →
      runMain env w =
        ({ w with destExists := false, icons := .absent },
          .failure .distributionNotSource)) ∧
    ((findRenpyDistributionRoot env.materializedTree).isSome = false →
      runMain env w =
        ({ w with destExists := true, icons := .absent },
          .failure .noHtmlFound)) ∧
    ErrKind.distributionNotSource ≠ ErrKind.noHtmlFound := by
  have hop : (env.sourceIsDir || env.zipOpens) = true := by
    rcases hopen with h | h <;> simp [h]
  have hicons : icons0 env = .absent := by simp [icons0, hproj]
  have hrm : runMain env w =
      commitPhase env { w with destExists := true, icons := .absent } := by
    simp [runMain, hsrc, hop, hdry, hcopy, hproj, hicons]
  have hfin : finalTree env = env.materializedTree := by
    simp [finalTree, hproj]
  refine ⟨?_, ?_, by decide⟩
  · intro hdist
    rw [hrm]
    simp [commitPhase, hfin, hhtml, hdist]
  · intro hdist
    rw [hrm]
    simp [commitPhase, hfin, hhtml, hdist]

/-- Witness for `structure_error_disposition`. -/
theorem structure_error_disposition_witness :
    (findRenpyDistributionRoot envDist.materializedTree).isSome = true ∧
    runMain envDist wBase =
      ({ wBase with destExists := false, icons := .absent },
        .failure .distributionNotSource) :=
  ⟨rfl, (structure_error_disposition envDist wBase rfl (Or.inl rfl) rfl rfl
    rfl rfl).1 rfl⟩

/-! ## Commit-phase characterization lemmas -/

theorem commitPhase_success_files (env : Env) (w1 : World)
    (hs : (commitPhase env w1).2 = Outcome.success) :
    getRootHtmlFiles (finalTree env) ≠ [] := by
  intro hnil
  by_cases hd : (findRenpyDistributionRoot (finalTree env)).isSome = true
  · simp [commitPhase, hnil, hd] at hs
  · simp [commitPhase, hnil, hd] at hs

theorem runMain_success_commit (env : Env) (w : World)
    (hdry : env.args.dryRun = false)
    (hs : (runMain env w).2 = Outcome.success) :
    ∃ ic : IconState, runMain env w =
      commitPhase env { w with destExists := true, icons := ic } := by
  by_cases hsrc : env.sourceExists = true
  · by_cases hop : (env.sourceIsDir || env.zipOpens) = true
    · by_cases hcopy : env.copyOk = true
      · by_cases hproj :
            (findRenpyProjectRoot env.materializedTree).isSome = true
        · by_cases h1 : env.sdkPresent = true
          · by_cases h2 : env.webSupport = true
            · by_cases h3 : env.launcherFound = true
              · by_cases h4 : env.buildSucceeds = true
                · by_cases h5 : env.distBaseFound = true
                  · by_cases h6 : env.webEntryFound = true
                    · cases hk : env.webOutputKind with
                      | otherOutput =>
                        exfalso
                        simp [runMain, hsrc, hop, hdry, hcopy, hproj, h1, h2,
                          h3, h4, h5, h6, hk, buildTryStep] at hs
                      | dirOutput =>
                        exact ⟨.absent, by
                          simp [runMain, hsrc, hop, hdry, hcopy, hproj, h1,
                            h2, h3, h4, h5, h6, hk, buildTryStep]⟩
                      | zipOutput =>
                        exact ⟨.absent, by
                          simp [runMain, hsrc, hop, hdry, hcopy, hproj, h1,
                            h2, h3, h4, h5, h6, hk, buildTryStep]⟩
                    · exfalso
                      simp [runMain, hsrc, hop, hdry, hcopy, hproj, h1, h2,
                        h3, h4, h5, h6, buildTryStep] at hs
                  · exfalso
                    simp [runMain, hsrc, hop, hdry, hcopy, hproj, h1, h2,
                      h3, h4, h5, buildTryStep] at hs
                · exfalso
                  simp [runMain, hsrc, hop, hdry, hcopy, hproj, h1, h2, h3,
                    h4, buildTryStep] at hs
              · exfalso
                simp [runMain, hsrc, hop, hdry, hcopy, hproj, h1, h2, h3]
                  at hs
            · exfalso
              simp [runMain, hsrc, hop, hdry, hcopy, hproj, h1, h2] at hs
          · exfalso
            simp [runMain, hsrc, hop, hdry, hcopy, hproj, h1] at hs
        · exact ⟨icons0 env, by
            simp [runMain, hsrc, hop, hdry, hcopy, hproj]⟩
      · exfalso; simp [runMain, hsrc, hop, hdry, hcopy] at hs
    · exfalso; simp [runMain, hsrc, hop] at hs
  · exfalso; simp [runMain, hsrc] at hs

theorem commit_catalog_new (env : Env) (w1 : World)
    (hfs : getRootHtmlFiles (finalTree env) ≠ [])
    (hfind : w1.catalog.findIdx? (fun g => g.id = env.args.gameId) = none) :
    (commitPhase env w1).2 = Outcome.success ∧
    ∃ ng : Game, (commitPhase env w1).1.catalog = w1.catalog ++ [ng] ∧
      ng.id = env.args.gameId ∧ ng.lastUpdated = env.today ∧
      ng.version = resolveVersion env := by
  cases hfs' : getRootHtmlFiles (finalTree env) with
  | nil => exact absurd hfs' hfs
  | cons f fs =>
    cases hc : findThumbnailCandidate (finalTree env) with
    | none =>
      refine ⟨by simp [commitPhase, hfs'], ⟨{
          id := env.args.gameId, name := env.newName, gtype := env.newType,
          version := resolveVersion env, description := env.newDescription,
          thumbnail := "/images/games/" ++ env.args.gameId ++ ".png",
          playable := decide (env.newType ≠ "download-only"),
          lastUpdated := env.today,
          entryPoint := (selectEntryPoint (f :: fs) env.promptEntry).getD ""
        }, ?_, rfl, rfl, rfl⟩⟩
      simp [commitPhase, hfs', hc, hfind]
    | some c =>
      refine ⟨by simp [commitPhase, hfs'], ⟨{
          id := env.args.gameId, name := env.newName, gtype := env.newType,
          version := resolveVersion env, description := env.newDescription,
          thumbnail := "/images/games/" ++ env.args.gameId ++ c.2,
          playable := decide (env.newType ≠ "download-only"),
          lastUpdated := env.today,
          entryPoint := (selectEntryPoint (f :: fs) env.promptEntry).getD ""
        }, ?_, rfl, rfl, rfl⟩⟩
      simp [commitPhase, hfs', hc, hfind]

theorem commit_catalog_update (env : Env) (w1 : World) (i : Nat) (g : Game)
    (hfs : getRootHtmlFiles (finalTree env) ≠ [])
    (hfind : w1.catalog.findIdx? (fun g => g.id = env.args.gameId) = some i)
    (hget : w1.catalog.get? i = some g) :
    (commitPhase env w1).2 = Outcome.success ∧
    ∃ g' : Game, (commitPhase env w1).1.catalog = w1.catalog.set i g' ∧
      g'.id = g.id ∧ g'.name = g.name ∧ g'.gtype = g.gtype ∧
      g'.description = g.description ∧ g'.playable = g.playable ∧
      g'.version = resolveVersion env ∧ g'.lastUpdated = env.today ∧
      g'.entryPoint =
        (selectEntryPoint (getRootHtmlFiles (finalTree env))
          env.promptEntry).getD "" ∧
      (findThumbnailCandidate (finalTree env) = none →
        g'.thumbnail = g.thumbnail) := by
  have hget' : w1.catalog[i]? = some g := by
    rw [← List.get?_eq_getElem?]; exact hget
  cases hfs' : getRootHtmlFiles (finalTree env) with
  | nil => exact absurd hfs' hfs
  | cons f fs =>
    cases hc : findThumbnailCandidate (finalTree env) with
    | none =>
      refine ⟨by simp [commitPhase, hfs'], ⟨{ g with
          version := resolveVersion env,
          lastUpdated := env.today,
          entryPoint := (selectEntryPoint (f :: fs) env.promptEntry).getD "",
          thumbnail := g.thumbnail }, ?_, rfl, rfl, rfl, rfl, rfl, rfl, rfl,
        by simp [hfs'], fun h => rfl⟩⟩
      simp [commitPhase, hfs', hc, hfind, hget']
    | some c =>
      refine ⟨by simp [commitPhase, hfs'], ⟨{ g with
          version := resolveVersion env,
          lastUpdated := env.today,
          entryPoint := (selectEntryPoint (f :: fs) env.promptEntry).getD "",
          thumbnail := "/images/games/" ++ env.args.gameId ++ c.2 }, ?_, rfl,
        rfl, rfl, rfl, rfl, rfl, rfl, by simp [hfs'],
        fun h => Option.noConfusion h⟩⟩
      simp [commitPhase, hfs', hc, hfind, hget']

theorem commit_preserves_ids (env : Env) (w1 : World)
    (hfs : getRootHtmlFiles (finalTree env) ≠ [])
    (hnodup : (w1.catalog.map Game.id).Nodup) :
    ((commitPhase env w1).1.catalog.map Game.id).Nodup ∧
    ∃ g ∈ (commitPhase env w1).1.catalog, g.id = env.args.gameId := by
  cases hfind : w1.catalog.findIdx? (fun g => g.id = env.args.gameId) with
  | none =>
    obtain ⟨_, ng, hcat, hid, _, _⟩ := commit_catalog_new env w1 hfs hfind
    have hnotmem : env.args.gameId ∉ w1.catalog.map Game.id := by
      intro hmem
      obtain ⟨g, hg, hgid⟩ := List.mem_map.mp hmem
      have := (List.findIdx?_eq_none_iff.mp hfind) g hg
      simp [hgid] at this
    constructor
    · rw [hcat]
      have hms : (w1.catalog ++ [ng]).map Game.id =
          w1.catalog.map Game.id ++ [ng.id] := by simp
      rw [hms]
      exact nodup_append_singleton hnodup (by rw [hid]; exact hnotmem)
    · exact ⟨ng, by
        rw [hcat]; exact List.mem_append_right _ (List.mem_singleton_self ng),
        hid⟩
  | some i =>
    obtain ⟨_, g, hget0, hp⟩ := findIdx?_some_spec _ w1.catalog 0 i hfind
    have hget : w1.catalog.get? i = some g := by simpa using hget0
    have hgid : g.id = env.args.gameId := by simpa using hp
    obtain ⟨_, g', hcat, hid, _, _, _, _, _, _, _, _⟩ :=
      commit_catalog_update env w1 i g hfs hfind hget
    have hget'' : w1.catalog[i]? = some g := by
      rw [← List.get?_eq_getElem?]; exact hget
    have hilen : i < w1.catalog.length := by
      obtain ⟨h, _⟩ := List.getElem?_eq_some_iff.mp hget''
      exact h
    have hids : (commitPhase env w1).1.catalog.map Game.id =
        w1.catalog.map Game.id := by
      rw [hcat, List.map_set]
      apply set_get_self
      rw [List.get?_eq_getElem?, List.getElem?_map, hget'', hid]
      rfl
    refine ⟨by rw [hids]; exact hnodup, g', ?_, by rw [hid, hgid]⟩
    rw [hcat]
    apply List.get?_mem
    rw [List.get?_eq_getElem?]
    exact List.getElem?_set_self hilen

theorem update_run_props (env : Env) (w1 : World)
    (hfs : getRootHtmlFiles (finalTree env) ≠ [])
    (hnodup : (w1.catalog.map Game.id).Nodup)
    (hmem : ∃ g ∈ w1.catalog, g.id = env.args.gameId) :
    (commitPhase env w1).2 = Outcome.success ∧
    (commitPhase env w1).1.catalog.length = w1.catalog.length ∧
    ((commitPhase env w1).1.catalog.map Game.id).Nodup ∧
    ((commitPhase env w1).1.catalog.filter
      (fun g => g.id = env.args.gameId)).length = 1 ∧
    ∀ g ∈ (commitPhase env w1).1.catalog, g.id = env.args.gameId →
      g.lastUpdated = env.today ∧ g.version = resolveVersion env := by
  obtain ⟨g0, hg0, hg0id⟩ := hmem
  cases hfind : w1.catalog.findIdx? (fun g => g.id = env.args.gameId) with
  | none =>
    exfalso
    have := List.findIdx?_eq_none_iff.mp hfind g0 hg0
    simp [hg0id] at this
  | some i =>
    obtain ⟨_, g, hget0, hp⟩ := findIdx?_some_spec _ w1.catalog 0 i hfind
    have hget : w1.catalog.get? i = some g := by simpa using hget0
    have hgid : g.id = env.args.gameId := by simpa using hp
    obtain ⟨hsucc, g', hcat, hid, _, _, _, _, hver, hlast, _, _⟩ :=
      commit_catalog_update env w1 i g hfs hfind hget
    have hget'' : w1.catalog[i]? = some g := by
      rw [← List.get?_eq_getElem?]; exact hget
    have hilen : i < w1.catalog.length := by
      obtain ⟨h, _⟩ := List.getElem?_eq_some_iff.mp hget''
      exact h
    have hgeti : (w1.catalog.set i g')[i]? = some g' :=
      List.getElem?_set_self hilen
    have hids : (commitPhase env w1).1.catalog.map Game.id =
        w1.catalog.map Game.id := by
      rw [hcat, List.map_set]
      apply set_get_self
      rw [List.get?_eq_getElem?, List.getElem?_map, hget'', hid]
      rfl
    have hnodup' : ((commitPhase env w1).1.catalog.map Game.id).Nodup := by
      rw [hids]; exact hnodup
    have hmem' : g' ∈ (commitPhase env w1).1.catalog := by
      rw [hcat]
      apply List.get?_mem
      rw [List.get?_eq_getElem?]
      exact hgeti
    have honly : ∀ g₂ ∈ (commitPhase env w1).1.catalog,
        g₂.id = env.args.gameId → g₂ = g' := by
      intro g₂ hg₂ hg₂id
      rw [hcat] at hg₂
      obtain ⟨j, hj⟩ := List.mem_iff_getElem?.mp hg₂
      by_cases hji : j = i
      · subst hji
        rw [hgeti] at hj
        exact (Option.some.inj hj).symm
      · exfalso
        have hj' : w1.catalog[j]? = some g₂ := by
          rw [← hj, List.getElem?_set_ne (fun h => hji h.symm)]
        have hidj : (w1.catalog.map Game.id)[j]? = some env.args.gameId := by
          rw [List.getElem?_map, hj']
          simp [hg₂id]
        have hidi : (w1.catalog.map Game.id)[i]? = some env.args.gameId := by
          rw [List.getElem?_map, hget'']
          simp [hgid]
        have hlen : i < (w1.catalog.map Game.id).length := by
          rw [List.length_map]; exact hilen
        exact hji (List.getElem?_inj hlen hnodup (hidi.trans hidj.symm)).symm
    refine ⟨hsucc, by rw [hcat, List.length_set], hnodup', ?_, ?_⟩
    · exact filter_length_one_of_nodup Game.id env.args.gameId
        (commitPhase env w1).1.catalog hnodup' g' hmem'
        (by rw [hid, hgid])
    · intro g₂ hg₂ hg₂id
      rw [honly g₂ hg₂ hg₂id]
      exact ⟨hlast, hver⟩

/-! ## Update frame effect (claim C6) -/

/-- C6: re-ingesting an id already present in the catalog updates that entry
in place, overwriting only `version`, `lastUpdated`, `entryPoint` and — only
when a thumbnail candidate was found this run — `thumbnail`; the entry's
`id`, `name`, `gtype` (type), `description` and `playable` keep their stored
values, every other catalog entry is unchanged, and a run that finds no
thumbnail candidate leaves the stored thumbnail path unchanged. -/
theorem update_preserves_fields (env : Env) (w : World) (i : Nat) (g : Game)
    (hdry : env.args.dryRun = false)
    (hs : (runMain env w).2 = Outcome.success)
    (hfind : w.catalog.findIdx? (fun g => g.id = env.args.gameId) = some i)
    (hget : w.catalog.get? i = some g) :
    ∃ g' : Game,
      (runMain env w).1.catalog = w.catalog.set i g' ∧
      g'.id = g.id ∧ g'.name = g.name ∧ g'.gtype = g.gtype ∧
      g'.description = g.description ∧ g'.playable = g.playable ∧
      g'.version = resolveVersion env ∧ g'.lastUpdated = env.today ∧
      (findThumbnailCandidate (finalTree env) = none →
        g'.thumbnail = g.thumbnail) ∧
      (∀ j : Nat, j ≠ i →
        (runMain env w).1.catalog.get? j = w.catalog.get? j) := by
  obtain ⟨ic, hrc⟩ := runMain_success_commit env w hdry hs
  rw [hrc] at hs ⊢
  have hfs := commitPhase_success_files env _ hs
  obtain ⟨_, g', hcat, hid, hname, hgt, hdesc, hplay, hver, hlast, _, hth⟩ :=
    commit_catalog_update env { w with destExists := true, icons := ic } i g
      hfs hfind hget
  refine ⟨g', hcat, hid, hname, hgt, hdesc, hplay, hver, hlast, hth, ?_⟩
  intro j hj
  rw [hcat, List.get?_eq_getElem?, List.get?_eq_getElem?,
    List.getElem?_set_ne (fun h => hj h.symm)]

/-- Witness for `update_preserves_fields`. -/
theorem update_preserves_fields_witness :
    (runMain envUpd wUpd).2 = Outcome.success ∧
    ∃ g' : Game,
      (runMain envUpd wUpd).1.catalog = wUpd.catalog.set 0 g' ∧
      g'.id = gOld.id ∧ g'.name = gOld.name ∧ g'.gtype = gOld.gtype ∧
      g'.description = gOld.description ∧ g'.playable = gOld.playable ∧
      g'.version = resolveVersion envUpd ∧ g'.lastUpdated = envUpd.today ∧
      (findThumbnailCandidate (finalTree envUpd) = none →
        g'.thumbnail = gOld.thumbnail) ∧
      (∀ j : Nat, j ≠ 0 →
        (runMain envUpd wUpd).1.catalog.get? j = wUpd.catalog.get? j) :=
  ⟨rfl, update_preserves_fields envUpd wUpd 0 gOld rfl rfl rfl rfl⟩

/-! ## Idempotent re-ingestion and id uniqueness (claim C7) -/

/-- C7: starting from a catalog with pairwise-distinct ids, running the
pipeline twice with the same inputs (and both runs succeeding, not dry)
yields a catalog with exactly one entry for the ingested id, whose
`lastUpdated` and `version` come from the second run; id-uniqueness is
preserved, and the second run updates in place, leaving the catalog length
unchanged. -/
theorem reingestion_idempotence (env : Env) (w : World)
    (hnodup : (w.catalog.map Game.id).Nodup)
    (hdry : env.args.dryRun = false)
    (hs1 : (runMain env w).2 = Outcome.success)
    (hs2 : (runMain env (runMain env w).1).2 = Outcome.success) :
    ((runMain env (runMain env w).1).1.catalog.filter
      (fun g => g.id = env.args.gameId)).length = 1 ∧
    (∀ g ∈ (runMain env (runMain env w).1).1.catalog,
      g.id = env.args.gameId →
        g.lastUpdated = env.today ∧ g.version = resolveVersion env) ∧
    ((runMain env (runMain env w).1).1.catalog.map Game.id).Nodup ∧
    (runMain env (runMain env w).1).1.catalog.length =
      (runMain env w).1.catalog.length := by
  obtain ⟨ic1, hrc1⟩ := runMain_success_commit env w hdry hs1
  have hfs : getRootHtmlFiles (finalTree env) ≠ [] := by
    rw [hrc1] at hs1
    exact commitPhase_success_files env _ hs1
  have hprops1 :=
    commit_preserves_ids env { w with destExists := true, icons := ic1 }
      hfs hnodup
  obtain ⟨ic2, hrc2⟩ := runMain_success_commit env (runMain env w).1 hdry hs2
  rw [← hrc1] at hprops1
  have hnodup2 :
      (({ (runMain env w).1 with
          destExists := true, icons := ic2 } : World).catalog.map
        Game.id).Nodup := hprops1.1
  have hmem2 : ∃ g ∈ ({ (runMain env w).1 with
      destExists := true, icons := ic2 } : World).catalog,
      g.id = env.args.gameId := hprops1.2
  have hprops2 := update_run_props env
    { (runMain env w).1 with destExists := true, icons := ic2 }
    hfs hnodup2 hmem2
  rw [hrc2]
  exact ⟨hprops2.2.2.2.1, hprops2.2.2.2.2, hprops2.2.2.1, hprops2.2.1⟩

/-- Witness for `reingestion_idempotence`: ingesting `g1` twice into the
initially unrelated catalog of `wBase`. -/
theorem reingestion_idempotence_witness :
    (runMain envUpd (runMain envUpd wBase).1).2 = Outcome.success ∧
    ((runMain envUpd (runMain envUpd wBase).1).1.catalog.filter
      (fun g => g.id = envUpd.args.gameId)).length = 1 ∧
    (∀ g ∈ (runMain envUpd (runMain envUpd wBase).1).1.catalog,
      g.id = envUpd.args.gameId →
        g.lastUpdated = envUpd.today ∧ g.version = resolveVersion envUpd) ∧
    ((runMain envUpd (runMain envUpd wBase).1).1.catalog.map Game.id).Nodup ∧
    (runMain envUpd (runMain envUpd wBase).1).1.catalog.length =
      (runMain envUpd wBase).1.catalog.length :=
  ⟨rfl, reingestion_idempotence envUpd wBase (by decide) rfl rfl rfl⟩

/-! ## Icon hiding and restoration (claim C8) -/

/-- C8 counterexample: when the build subprocess fails, icons that had been
renamed out of the way are NOT restored to their original names: the
`catch` block deletes the whole destination directory (the renamed `.bak`
files with it) and then calls `error()`, whose `process.exit(1)` terminates
the process before the `finally` clause's `restoreProjectIcons` can run —
and the files it would restore no longer exist regardless. After a failing
build the icons are absent, not back at their original names. -/
theorem iconsNotRestoredOnFailure :
    (buildTryStep false .atOriginal).1 ≠ IconState.atOriginal ∧
    (buildTryStep false .atOriginal).1 = IconState.absent :=
  ⟨by decide, rfl⟩

/-- C8 (amended): restoration of the hidden platform-icon files is
guaranteed on the success path only — after a successful build the icons
are back at their original names from any state the orchestrator can enter
the build step with (present at original names, or absent); on the failure
path the destination directory (including the renamed icon files) is
deleted before the process exits, so the icons end up absent rather than
restored. -/
theorem icon_restoration_spec (st : IconState)
    (h : st ≠ IconState.hiddenBak) :
    (buildTryStep true st).1 = st ∧
    (buildTryStep false st).1 = IconState.absent ∧
    (buildTryStep false st).2 = false := by
  cases st with
  | hiddenBak => exact absurd rfl h
  | atOriginal =>
    exact ⟨rfl, rfl, rfl⟩
  | absent =>
    exact ⟨rfl, rfl, rfl⟩

/-- Witness for `icon_restoration_spec`. -/
theorem icon_restoration_spec_witness :
    IconState.atOriginal ≠ IconState.hiddenBak ∧
    ((buildTryStep true .atOriginal).1 = IconState.atOriginal ∧
     (buildTryStep false .atOriginal).1 = IconState.absent ∧
     (buildTryStep false .atOriginal).2 = false) :=
  ⟨by decide, icon_restoration_spec .atOriginal (by decide)⟩
